import Mathlib

/-!
Shallow embedding of the text-suggestion engine:
prefix trie (`core/trie.py`), word completor (`core/word_completor.py`),
n-gram context model (`core/ngram.py`), suggestion combiner
(`core/text_suggestion.py`) and the interactive suggestion policy
(`app/state.py`).

Python strings are modelled as `List Char`; Python `dict` / `Counter`
are modelled as insertion-ordered association lists, so that key
enumeration order matches CPython's insertion order. Probabilities
(Python floats produced by exact integer divisions) are modelled as `ℚ`.
-/

/-- A word / token: a Python string, as a list of characters. -/
abbrev Word := List Char

/-- Python `str.isspace` on a single character (ASCII whitespace). -/
def pySpace (c : Char) : Bool :=
  c = ' ' || c = '\t' || c = '\n' || c = '\x0d' || c = '\x0b' || c = '\x0c'

/-- Python `str.split()` (no-argument form): split on runs of whitespace,
dropping empty fields. -/
def splitWs : List Char → List Word
  | [] => []
  | c :: rest =>
    if pySpace c then splitWs rest
    else (c :: rest.takeWhile (fun x => !pySpace x))
        :: splitWs (rest.dropWhile (fun x => !pySpace x))
termination_by l => l.length
decreasing_by
  · simp
  · have h : ∀ (l : List Char), (l.dropWhile (fun x => !pySpace x)).length ≤ l.length := by
      intro l
      induction l with
      | nil => simp [List.dropWhile]
      | cons a t ih => by_cases hc : pySpace a <;> simp [List.dropWhile, hc] <;> omega
    have := h rest
    simp
    omega

/-- First-match association-list lookup: Python `d[k]` / `k in d`. -/
def lookupA {α β : Type} [DecidableEq α] : List (α × β) → α → Option β
  | [], _ => none
  | (k, v) :: t, k0 => if k = k0 then some v else lookupA t k0

/-- Lookup with a default value (Python `Counter.__getitem__` returns the
default without inserting). -/
def lookupD {α β : Type} [DecidableEq α] (l : List (α × β)) (k : α) (d : β) : β :=
  (lookupA l k).getD d

/-- The keys of an association list, in insertion order. -/
def keysOf {α β : Type} (l : List (α × β)) : List α := l.map Prod.fst

/-- Increment a counter entry: `counter[k] += 1`. A key already present is
updated in place; a fresh key is appended (CPython dict insertion order). -/
def cincr {α : Type} [DecidableEq α] : List (α × Nat) → α → List (α × Nat)
  | [], k0 => [(k0, 1)]
  | (k, v) :: t, k0 => if k = k0 then (k, v + 1) :: t else (k, v) :: cincr t k0

/-- Sum of the stored counts: Python `sum(counter.values())`. -/
def sumVals {α : Type} (l : List (α × Nat)) : Nat := (l.map Prod.snd).sum

/- ### Prefix tree: `core/trie.py` -/

/-- Python class `PrefixTreeNode`: a mapping from characters to child nodes (insertion
ordered) plus the end-of-word flag. -/
inductive Trie : Type where
  | mk : List (Char × Trie) → Bool → Trie

/-- Python dict assignment `d[k] = v`: replace in place when the key is
present, append otherwise. -/
def updA {α β : Type} [DecidableEq α] : List (α × β) → α → β → List (α × β)
  | [], k0, v0 => [(k0, v0)]
  | (k, v) :: t, k0, v0 => if k = k0 then (k, v0) :: t else (k, v) :: updA t k0 v0

/-- Method `PrefixTree._insert`: walk the characters of the word, descending into
an existing child or creating a fresh one (appended, per CPython dict
order), and flag the final node as end-of-word. -/
def insertT : Trie → Word → Trie
  | Trie.mk cs _, [] => Trie.mk cs true
  | Trie.mk cs e, c :: rest =>
    match lookupA cs c with
    | some child => Trie.mk (updA cs c (insertT child rest)) e
    | none => Trie.mk (cs ++ [(c, insertT (Trie.mk [] false) rest)]) e

/-- Deduplicate keeping first occurrences: a deterministic stand-in for
Python's `set(vocabulary)` iteration in `PrefixTree.__init__` (CPython's
set order is unspecified; every claim below is order-insensitive). -/
def dedupFirst {α : Type} [DecidableEq α] : List α → List α
  | [] => []
  | a :: t => a :: dedupFirst (t.filter (fun x => x ≠ a))
termination_by l => l.length
decreasing_by
  simp only [List.length_cons]
  have := List.length_filter_le (fun x => decide (x ≠ a)) t
  omega

/-- Constructor `PrefixTree.__init__`: insert each distinct word of the vocabulary. -/
def buildTrie (vocab : List Word) : Trie :=
  (dedupFirst vocab).foldl insertT (Trie.mk [] false)

mutual
/-- Method `PrefixTree._collect_words`: depth-first traversal collecting all
words below a node; the node's own word first, then the children in
stored order. -/
def collectWords : Trie → Word → List Word
  | Trie.mk cs e, pre => (if e then [pre] else []) ++ collectChildren cs pre
def collectChildren : List (Char × Trie) → Word → List Word
  | [], _ => []
  | (c, t) :: rest, pre => collectWords t (pre ++ [c]) ++ collectChildren rest pre
end

/-- The descent loop of `PrefixTree.search_prefix`: follow the characters
of the query; `none` when a child is missing. -/
def descendT : Trie → Word → Option Trie
  | t, [] => some t
  | Trie.mk cs _, c :: rest =>
    match lookupA cs c with
    | none => none
    | some child => descendT child rest

/-- Method `PrefixTree.search_prefix`: all stored words starting with `p`
(empty list when the descent falls off the tree). -/
def searchPrefix (t : Trie) (p : Word) : List Word :=
  match descendT t p with
  | none => []
  | some node => collectWords node p

/-- Membership of a single word in the trie (the path exists and its last
node is flagged); a specification-side helper for the proofs. -/
def containsT : Trie → Word → Bool
  | Trie.mk _ e, [] => e
  | Trie.mk cs _, c :: rest =>
    match lookupA cs c with
    | none => false
    | some child => containsT child rest

/-- Well-formedness: at every node the child keys are distinct. Holds for
every trie built by repeated insertion into the empty trie. -/
inductive TrieWF : Trie → Prop where
  | mk {cs : List (Char × Trie)} {e : Bool} :
      (keysOf cs).Nodup → (∀ p ∈ cs, TrieWF p.2) → TrieWF (Trie.mk cs e)

/- ### Context model: `core/ngram.py` -/

/-- Python class `NGramLanguageModel`: the order, the context table
(context ↦ next-token counter) and the per-context totals. -/
structure NGramModel : Type where
  n : Nat
  nextCounts : List (List Word × List (Word × Nat))
  contextTotals : List (List Word × Nat)
deriving DecidableEq

/-- Statement `self.next_counts[context][next_word] += 1` on a `defaultdict(Counter)`:
a missing context is appended with a one-entry counter. -/
def ncIncr (nc : List (List Word × List (Word × Nat))) (ctx : List Word) (w : Word) :
    List (List Word × List (Word × Nat)) :=
  match nc with
  | [] => [(ctx, cincr [] w)]
  | (c, cnt) :: t =>
    if c = ctx then (c, cincr cnt w) :: t else (c, cnt) :: ncIncr t ctx w

/-- The `(context, next_word)` pairs one sentence contributes in
`NGramLanguageModel.__init__`: nothing when `not sent or len(sent) < n`,
otherwise one pair per `i in range(len(sent) - n)` with
`context = tuple(sent[i : i + n])` and `next_word = sent[i + n]`. -/
def sentEvents (n : Nat) (sent : List Word) : List (List Word × Word) :=
  if sent.isEmpty || sent.length < n then []
  else (List.range (sent.length - n)).map
    (fun i => ((sent.drop i).take n, sent.getD (i + n) []))

/-- One increment step of the construction loop. -/
def stepNG (m : NGramModel) (ev : List Word × Word) : NGramModel :=
  { m with nextCounts := ncIncr m.nextCounts ev.1 ev.2,
           contextTotals := cincr m.contextTotals ev.1 }

/-- Constructor `NGramLanguageModel.__init__`: `none` models the `ValueError` raised
for `n < 1`; otherwise both tables are filled sentence by sentence. -/
def buildNGram (corpus : List (List Word)) (n : Nat) : Option NGramModel :=
  if n < 1 then none
  else some (corpus.foldl (fun m sent => (sentEvents n sent).foldl stepNG m)
    { n := n, nextCounts := [], contextTotals := [] })

/-- Method `NGramLanguageModel.get_next_words_and_probs`. `Except.error`
models the `ValueError` for a context shorter than `n`. The
`defaultdict` read `self.next_counts[context]` is modelled faithfully:
it would append an empty counter for a missing key, and the returned
model carries that (possibly updated) table. -/
def getNextWordsAndProbs (m : NGramModel) (pre : List Word) :
    Except Unit ((List Word × List ℚ) × NGramModel) :=
  if pre.length < m.n then Except.error ()
  else
    let context := pre.drop (pre.length - m.n)
    if (lookupA m.nextCounts context).isNone then Except.ok (([], []), m)
    else
      let counts := (lookupA m.nextCounts context).getD []
      let nextCounts2 := if (lookupA m.nextCounts context).isSome
        then m.nextCounts else m.nextCounts ++ [(context, [])]
      let total := lookupD m.contextTotals context 0
      let words := counts.map Prod.fst
      let probs := counts.map (fun p => (p.2 : ℚ) / (total : ℚ))
      Except.ok ((words, probs), { m with nextCounts := nextCounts2 })

/- ### Word completor: `core/word_completor.py` -/

/-- Python class `WordCompletor`: token counter, total retained mass, prefix tree. -/
structure WordCompletor : Type where
  counter : List (Word × Nat)
  totalCount : Nat
  tree : Trie

/-- Constructor `WordCompletor.__init__`: count every token of every document, drop
tokens below `min_freq` when `min_freq > 1`, record the total retained
mass and build the prefix tree over the retained vocabulary. -/
def buildWordCompletor (corpus : List (List Word)) (minFreq : Nat) : WordCompletor :=
  let counter0 := corpus.foldl (fun c doc => doc.foldl cincr c) []
  let counter := if 1 < minFreq then counter0.filter (fun p => minFreq ≤ p.2) else counter0
  let total := if counter.isEmpty then 0 else sumVals counter
  { counter := counter, totalCount := total, tree := buildTrie (keysOf counter) }

/-- Method `WordCompletor.get_words_and_probs`. -/
def getWordsAndProbs (wc : WordCompletor) (pre : Word) : List Word × List ℚ :=
  let words := if pre.isEmpty then keysOf wc.counter else searchPrefix wc.tree pre
  if words.isEmpty || wc.totalCount = 0 then ([], [])
  else (words, words.map (fun w => ((lookupD wc.counter w 0 : Nat) : ℚ) / (wc.totalCount : ℚ)))

/- ### Interactive suggestion policy: `app/state.py`, `State.update_text` -/

/-- Insert right before the first element of strictly smaller score:
one step of the stable descending sort. -/
def insDesc (x : Word × ℚ) : List (Word × ℚ) → List (Word × ℚ)
  | [] => [x]
  | y :: ys => if x.2 < y.2 then y :: insDesc x ys else x :: y :: ys

/-- Python's stable `sorted(pairs, key=lambda x: -x[1])`: descending by
score, ties keeping the original order. -/
def sortDesc : List (Word × ℚ) → List (Word × ℚ)
  | [] => []
  | x :: xs => insDesc x (sortDesc xs)

/-- The loop of `backfill_suggestions`: append each ranked word not yet
present, stopping as soon as three are held. -/
def backfillLoop (filled : List Word) : List (Word × ℚ) → List Word
  | [] => filled
  | (w, _) :: rest =>
    if w ∈ filled then backfillLoop filled rest
    else
      let filled2 := filled ++ [w]
      if filled2.length = 3 then filled2 else backfillLoop filled2 rest

/-- Closure `backfill_suggestions` in `State.update_text`: an existing list of
three or more is truncated; otherwise the whole vocabulary, ranked by
descending unfiltered probability, pads the list up to three. -/
def backfillSuggestions (wc : WordCompletor) (existing : List Word) : List Word :=
  if 3 ≤ existing.length then existing.take 3
  else
    let aw := getWordsAndProbs wc []
    backfillLoop existing (sortDesc (aw.1.zip aw.2))

/-- The mid-word padding loop over the context model's next words. -/
def padLoop (s : List Word) : List Word → List Word
  | [] => s
  | w :: rest =>
    if w ∈ s then padLoop s rest
    else
      let s2 := s ++ [w]
      if s2.length = 3 then s2 else padLoop s2 rest

/-- The `try: ... except ValueError: next_words = []` pattern around
`get_next_words_and_probs` in `State.update_text`. -/
def nextWordsOr (ng : NGramModel) (tokens : List Word) : List Word :=
  match getNextWordsAndProbs ng tokens with
  | Except.error _ => []
  | Except.ok ((ws, _), _) => ws

/-- Method `State.update_text`, the per-keystroke policy: returns the suggestion
list and the ghost suffix for the current buffer. -/
def updateText (wc : WordCompletor) (ng : NGramModel) (value : List Char) :
    List Word × Word :=
  let stripped := value.dropWhile (fun c => pySpace c)
  if stripped.isEmpty then ([], [])
  else
    let lastCharIsSpace := match value.getLast? with
      | some c => pySpace c
      | none => false
    let tokens := splitWs stripped
    if lastCharIsSpace then
      let suggestions := backfillSuggestions wc ((nextWordsOr ng tokens).take 3)
      (suggestions, suggestions.headD [])
    else
      let pre := tokens.getLastD []
      let wp := getWordsAndProbs wc pre
      let completions := ((sortDesc (wp.1.zip wp.2)).take 3).map Prod.fst
      let suggestions1 :=
        if completions.length < 3 then padLoop completions (nextWordsOr ng tokens)
        else completions
      let suggestions := backfillSuggestions wc suggestions1
      let ghost := match suggestions with
        | [] => ([] : Word)
        | best :: _ => if pre.isPrefixOf best then best.drop pre.length else best
      (suggestions, ghost)

/- ### Suggestion combiner: `core/text_suggestion.py` -/

/-- Python `max(range(len(l)), key=lambda i: l[i])`: the first index of a
maximal element (`max` keeps the earlier element on ties). -/
def argmaxGo (l : List ℚ) (i : Nat) (bi : Nat) (bv : ℚ) : Nat :=
  match l with
  | [] => bi
  | x :: rest => if bv < x then argmaxGo rest (i + 1) i x else argmaxGo rest (i + 1) bi bv

/-- First index of the maximum of a rational list (0 on the empty list,
which the callers rule out). -/
def argmaxIdx : List ℚ → Nat
  | [] => 0
  | x :: rest => argmaxGo rest 1 0 x

/-- Stage 2 of `TextSuggestion.suggest_text`: greedily append the most
probable next token, stopping on a `ValueError` or an empty candidate
list. -/
def greedyExtend (ng : NGramModel) : Nat → List Word → List Word → List Word
  | 0, suggestion, _ => suggestion
  | fuel + 1, suggestion, contextSeq =>
    match getNextWordsAndProbs ng contextSeq with
    | Except.error _ => suggestion
    | Except.ok ((nws, nps), _) =>
      if nws.isEmpty then suggestion
      else
        let w := nws.getD (argmaxIdx nps) []
        greedyExtend ng fuel (suggestion ++ [w]) (contextSeq ++ [w])

/-- Method `TextSuggestion.suggest_text` on an already-normalised token list:
complete the last token, then greedily extend `n_words` times; the final
`[suggestion][:n_texts]` truncation included. -/
def suggestText (wc : WordCompletor) (ng : NGramModel) (tokens : List Word)
    (nWords : Nat) (nTexts : Nat) : List (List Word) :=
  if tokens.isEmpty then []
  else
    let cand := getWordsAndProbs wc (tokens.getLastD [])
    if cand.1.isEmpty then []
    else
      let completed := cand.1.getD (argmaxIdx cand.2) []
      let suggestion := greedyExtend ng nWords [completed] (tokens.dropLast ++ [completed])
      [suggestion].take nTexts

/- ### Concrete corpora used by the end-to-end claims -/

/-- The corpus of the end-to-end example:
`[["hello","world"],["hello","there"],["how","are","you"]]`. -/
def corpusEx : List (List Word) :=
  [[['h','e','l','l','o'], ['w','o','r','l','d']],
   [['h','e','l','l','o'], ['t','h','e','r','e']],
   [['h','o','w'], ['a','r','e'], ['y','o','u']]]

/-- The word completor built over `corpusEx` with `min_freq = 1`. -/
def wcEx : WordCompletor := buildWordCompletor corpusEx 1

/-- A three-sentence corpus `[["a","b"],["a","c"],["a","c"]]` on which the
context `("a",)` sees `"b"` first but `"c"` more often. -/
def corpusBC : List (List Word) := [[['a'], ['b']], [['a'], ['c']], [['a'], ['c']]]

/-- The observed probability of `w` after context `ctx`:
`next_counts[ctx][w] / context_totals[ctx]`. -/
def obsProb (m : NGramModel) (ctx : List Word) (w : Word) : ℚ :=
  ((lookupD ((lookupA m.nextCounts ctx).getD []) w 0 : Nat) : ℚ)
    / ((lookupD m.contextTotals ctx 0 : Nat) : ℚ)

/-- The n-gram model of the example corpus with order 1 (the `getD`
default is never reached: `buildNGram` only fails for order 0). -/
def ngEx : NGramModel := (buildNGram corpusEx 1).getD ⟨1, [], []⟩

/-- Word completor over `corpusBC`. -/
def wcBC : WordCompletor := buildWordCompletor corpusBC 1

/-- Order-1 model over `corpusBC`. -/
def ngBC : NGramModel := (buildNGram corpusBC 1).getD ⟨1, [], []⟩

/-- The stored next-token count of `w` after context `ctx`. -/
def countAt (m : NGramModel) (ctx : List Word) (w : Word) : Nat :=
  lookupD ((lookupA m.nextCounts ctx).getD []) w 0

/-- The stored total of context `ctx`. -/
def totalAt (m : NGramModel) (ctx : List Word) : Nat :=
  lookupD m.contextTotals ctx 0

/-- How many windows of `sent` equal `ctx` and are followed by `w`:
the number of `i in range(len(sent) - n)` with `sent[i:i+n] = ctx` and
`sent[i+n] = w`. -/
def windowCount (n : Nat) (sent : List Word) (ctx : List Word) (w : Word) : Nat :=
  ((List.range (sent.length - n)).filter
    (fun i => decide ((sent.drop i).take n = ctx) && decide (sent.getD (i + n) [] = w))).length

/-- How many windows of `sent` (each with a following token) equal `ctx`. -/
def ctxCount (n : Nat) (sent : List Word) (ctx : List Word) : Nat :=
  ((List.range (sent.length - n)).filter
    (fun i => decide ((sent.drop i).take n = ctx))).length

/-- Invariants of every constructed context model: totals match the
per-context counter sums; every stored counter is non-empty with positive
counts and distinct keys; a context is a key exactly when its total is
positive; the outer key list is duplicate-free. -/
def NGInv (m : NGramModel) : Prop :=
  (∀ ctx : List Word, totalAt m ctx = sumVals ((lookupA m.nextCounts ctx).getD []))
  ∧ (∀ (ctx : List Word) (c : List (Word × Nat)), lookupA m.nextCounts ctx = some c →
      c ≠ [] ∧ (∀ p ∈ c, 0 < p.2) ∧ (keysOf c).Nodup)
  ∧ (∀ ctx : List Word, ctx ∈ keysOf m.nextCounts ↔ 0 < totalAt m ctx)

/-- Run a sequence of context-model queries, each on the model state the
previous one returned (a failed query leaves the state as is). -/
def runQueries (m : NGramModel) (qs : List (List Word)) : NGramModel :=
  qs.foldl (fun m1 q =>
    match getNextWordsAndProbs m1 q with
    | Except.ok (_, m2) => m2
    | Except.error _ => m1) m

/-- The pre-backfill suggestion list of `State.update_text` (the output
of the primary sources, before `backfill_suggestions` runs): the first
three context-model next-words after a completed word, or the ranked
completions padded by context-model words mid-word. -/
def preSuggestions (wc : WordCompletor) (ng : NGramModel) (value : List Char) : List Word :=
  let stripped := value.dropWhile (fun c => pySpace c)
  let lastCharIsSpace := match value.getLast? with
    | some c => pySpace c
    | none => false
  let tokens := splitWs stripped
  if lastCharIsSpace then (nextWordsOr ng tokens).take 3
  else
    let wp := getWordsAndProbs wc (tokens.getLastD [])
    let completions := ((sortDesc (wp.1.zip wp.2)).take 3).map Prod.fst
    if completions.length < 3 then padLoop completions (nextWordsOr ng tokens)
    else completions

/- ### Association-list lemmas -/

theorem lookupA_cincr {α : Type} [DecidableEq α] (l : List (α × Nat)) (k k0 : α) :
    lookupD (cincr l k0) k 0 = lookupD l k 0 + (if k = k0 then 1 else 0) := by
  induction l with
  | nil =>
    by_cases h : k = k0
    · subst h; simp [cincr, lookupD, lookupA]
    · have h2 : ¬ k0 = k := fun he => h he.symm
      simp [cincr, lookupD, lookupA, h, h2]
  | cons p t ih =>
    obtain ⟨k1, v1⟩ := p
    by_cases h1 : k1 = k0
    · subst h1
      by_cases h2 : k1 = k
      · subst h2; simp [cincr, lookupD, lookupA]
      · have h3 : ¬ k = k1 := fun he => h2 he.symm
        simp [cincr, lookupD, lookupA, h2, h3]
    · by_cases h2 : k1 = k
      · subst h2
        have h3 : ¬ k1 = k0 := fun he => h1 he
        simp [cincr, lookupD, lookupA, h1, h3]
      · simp only [cincr, if_neg h1, lookupD, lookupA, if_neg h2]
        exact ih

theorem keysOf_cincr {α : Type} [DecidableEq α] (l : List (α × Nat)) (k0 : α) :
    keysOf (cincr l k0) = if k0 ∈ keysOf l then keysOf l else keysOf l ++ [k0] := by
  induction l with
  | nil => simp [cincr, keysOf]
  | cons p t ih =>
    obtain ⟨k1, v1⟩ := p
    by_cases h1 : k1 = k0
    · subst h1; simp [cincr, keysOf]
    · have hne : ¬ k0 = k1 := fun h => h1 h.symm
      simp only [cincr, if_neg h1, keysOf, List.map_cons]
      simp only [keysOf] at ih
      rw [ih]
      by_cases h2 : k0 ∈ List.map Prod.fst t
      · simp [List.mem_cons, h2, hne]
      · simp [List.mem_cons, h2, hne]

theorem mem_keysOf_cincr {α : Type} [DecidableEq α] (l : List (α × Nat)) (k k0 : α) :
    k ∈ keysOf (cincr l k0) ↔ k ∈ keysOf l ∨ k = k0 := by
  rw [keysOf_cincr]
  by_cases h : k0 ∈ keysOf l
  · rw [if_pos h]
    exact ⟨Or.inl, fun hk => hk.elim id (fun he => he ▸ h)⟩
  · rw [if_neg h]
    simp [List.mem_append]

theorem nodup_keysOf_cincr {α : Type} [DecidableEq α] (l : List (α × Nat)) (k0 : α)
    (h : (keysOf l).Nodup) : (keysOf (cincr l k0)).Nodup := by
  rw [keysOf_cincr]
  by_cases hm : k0 ∈ keysOf l
  · rw [if_pos hm]; exact h
  · rw [if_neg hm]
    refine h.append (List.nodup_singleton k0) ?_
    intro a ha hb
    simp at hb
    subst hb
    exact hm ha

theorem sumVals_cincr {α : Type} [DecidableEq α] (l : List (α × Nat)) (k0 : α) :
    sumVals (cincr l k0) = sumVals l + 1 := by
  induction l with
  | nil => simp [cincr, sumVals]
  | cons p t ih =>
    obtain ⟨k1, v1⟩ := p
    by_cases h1 : k1 = k0
    · subst h1
      have he : cincr ((k1, v1) :: t) k1 = (k1, v1 + 1) :: t := by simp [cincr]
      rw [he]
      simp only [sumVals, List.map_cons, List.sum_cons]
      omega
    · simp only [cincr, if_neg h1, sumVals, List.map_cons, List.sum_cons]
      simp only [sumVals] at ih
      omega

theorem cincr_ne_nil {α : Type} [DecidableEq α] (l : List (α × Nat)) (k : α) :
    cincr l k ≠ [] := by
  cases l with
  | nil => simp [cincr]
  | cons p t =>
    obtain ⟨k1, v1⟩ := p
    by_cases h : k1 = k <;> simp [cincr, h]

theorem pos_vals_cincr {α : Type} [DecidableEq α] (l : List (α × Nat)) (k0 : α)
    (h : ∀ p ∈ l, 0 < p.2) : ∀ p ∈ cincr l k0, 0 < p.2 := by
  induction l with
  | nil =>
    intro p hp
    simp [cincr] at hp
    simp [hp]
  | cons q t ih =>
    obtain ⟨k1, v1⟩ := q
    by_cases h1 : k1 = k0
    · subst h1
      intro p hp
      simp only [cincr, if_pos rfl] at hp
      rcases List.mem_cons.mp hp with h2 | h2
      · subst h2; simp
      · exact h p (List.mem_cons_of_mem _ h2)
    · intro p hp
      simp only [cincr, if_neg h1] at hp
      rcases List.mem_cons.mp hp with h2 | h2
      · subst h2; exact h _ (List.mem_cons_self _ _)
      · exact ih (fun q hq => h q (List.mem_cons_of_mem _ hq)) p h2

theorem lookupA_eq_none_iff {α β : Type} [DecidableEq α] (l : List (α × β)) (k : α) :
    lookupA l k = none ↔ k ∉ keysOf l := by
  induction l with
  | nil => simp [lookupA, keysOf]
  | cons p t ih =>
    obtain ⟨k1, v1⟩ := p
    by_cases h1 : k1 = k
    · simp [lookupA, keysOf, h1]
    · have h2 : ¬ k = k1 := fun h => h1 h.symm
      simp only [lookupA, if_neg h1, keysOf, List.map_cons, List.mem_cons]
      rw [ih]
      simp only [keysOf]
      tauto

/- ### Trie induction -/

theorem sizeOf_child_lt (cs : List (Char × Trie)) (e : Bool) {p : Char × Trie}
    (hp : p ∈ cs) : sizeOf p.2 < sizeOf (Trie.mk cs e) := by
  have h1 : sizeOf p < sizeOf cs := List.sizeOf_lt_of_mem hp
  obtain ⟨c, t⟩ := p
  simp at h1 ⊢
  omega

/-- Structural induction over the nested `Trie` type. -/
theorem trieInd (P : Trie → Prop)
    (h : ∀ cs e, (∀ p ∈ cs, P p.2) → P (Trie.mk cs e)) : ∀ t, P t
  | Trie.mk cs e => h cs e (fun p hp => trieInd P h p.2)
termination_by t => sizeOf t
decreasing_by exact sizeOf_child_lt cs e hp

/- ### Context-model construction lemmas -/

theorem lookupA_ncIncr (nc : List (List Word × List (Word × Nat)))
    (ctx : List Word) (w : Word) (ctx2 : List Word) :
    lookupA (ncIncr nc ctx w) ctx2
      = if ctx2 = ctx then some (cincr ((lookupA nc ctx).getD []) w)
        else lookupA nc ctx2 := by
  induction nc with
  | nil =>
    by_cases h : ctx2 = ctx
    · subst h; simp [ncIncr, lookupA]
    · have h2 : ¬ ctx = ctx2 := fun he => h he.symm
      simp [ncIncr, lookupA, h, h2]
  | cons p t ih =>
    obtain ⟨c, cnt⟩ := p
    by_cases hc : c = ctx
    · subst hc
      by_cases h2 : ctx2 = c
      · subst h2; simp [ncIncr, lookupA]
      · have h3 : ¬ c = ctx2 := fun he => h2 he.symm
        simp [ncIncr, lookupA, h2, h3]
    · by_cases h2 : c = ctx2
      · subst h2
        simp [ncIncr, lookupA, hc]
      · simp only [ncIncr, if_neg hc, lookupA, if_neg h2]
        rw [ih]

theorem mem_keysOf_ncIncr (nc : List (List Word × List (Word × Nat)))
    (ctx : List Word) (w : Word) (k : List Word) :
    k ∈ keysOf (ncIncr nc ctx w) ↔ k ∈ keysOf nc ∨ k = ctx := by
  induction nc with
  | nil => simp [ncIncr, keysOf]
  | cons p t ih =>
    obtain ⟨c, cnt⟩ := p
    by_cases hc : c = ctx
    · subst hc
      have he : ncIncr ((c, cnt) :: t) c w = (c, cincr cnt w) :: t := by
        simp [ncIncr]
      rw [he]
      simp only [keysOf, List.map_cons, List.mem_cons]
      tauto
    · simp only [ncIncr, if_neg hc, keysOf, List.map_cons, List.mem_cons]
      simp only [keysOf] at ih
      rw [ih]
      tauto

theorem countAt_stepNG (m : NGramModel) (ev : List Word × Word)
    (ctx : List Word) (w : Word) :
    countAt (stepNG m ev) ctx w
      = countAt m ctx w + if ev.1 = ctx ∧ ev.2 = w then 1 else 0 := by
  obtain ⟨c0, w0⟩ := ev
  simp only [countAt, stepNG]
  rw [lookupA_ncIncr]
  by_cases h1 : ctx = c0
  · subst h1
    rw [if_pos rfl, Option.getD_some, lookupA_cincr]
    by_cases h2 : w = w0
    · simp [h2]
    · have h3 : ¬ w0 = w := fun he => h2 he.symm
      simp [h2, h3]
  · rw [if_neg h1]
    have h3 : ¬ (c0 = ctx ∧ w0 = w) := fun hh => h1 hh.1.symm
    simp [h3]

theorem totalAt_stepNG (m : NGramModel) (ev : List Word × Word) (ctx : List Word) :
    totalAt (stepNG m ev) ctx = totalAt m ctx + if ev.1 = ctx then 1 else 0 := by
  obtain ⟨c0, w0⟩ := ev
  simp only [totalAt, stepNG]
  rw [lookupA_cincr]
  by_cases h1 : ctx = c0
  · simp [h1]
  · have h2 : ¬ c0 = ctx := fun he => h1 he.symm
    simp [h1, h2]

theorem countAt_foldEvents (evs : List (List Word × Word)) (m : NGramModel)
    (ctx : List Word) (w : Word) :
    countAt (evs.foldl stepNG m) ctx w
      = countAt m ctx w
        + evs.countP (fun e => decide (e.1 = ctx) && decide (e.2 = w)) := by
  induction evs generalizing m with
  | nil => simp
  | cons e t ih =>
    simp only [List.foldl_cons, List.countP_cons]
    rw [ih, countAt_stepNG]
    by_cases h1 : e.1 = ctx <;> by_cases h2 : e.2 = w <;> simp [h1, h2] <;> omega

theorem totalAt_foldEvents (evs : List (List Word × Word)) (m : NGramModel)
    (ctx : List Word) :
    totalAt (evs.foldl stepNG m) ctx
      = totalAt m ctx + evs.countP (fun e => decide (e.1 = ctx)) := by
  induction evs generalizing m with
  | nil => simp
  | cons e t ih =>
    simp only [List.foldl_cons, List.countP_cons]
    rw [ih, totalAt_stepNG]
    by_cases h1 : e.1 = ctx <;> simp [h1] <;> omega

theorem countP_sentEvents (n : Nat) (sent : List Word) (ctx : List Word) (w : Word) :
    (sentEvents n sent).countP (fun e => decide (e.1 = ctx) && decide (e.2 = w))
      = windowCount n sent ctx w := by
  unfold sentEvents windowCount
  by_cases hg : (sent.isEmpty || decide (sent.length < n)) = true
  · rw [if_pos hg]
    have hlen : sent.length - n = 0 := by
      rcases Bool.or_eq_true_iff.mp hg with h | h
      · simp [List.isEmpty_iff.mp h]
      · have := of_decide_eq_true h
        omega
    simp [hlen]
  · rw [if_neg hg]
    rw [List.countP_map, List.countP_eq_length_filter]
    rfl

theorem countP_ctx_sentEvents (n : Nat) (sent : List Word) (ctx : List Word) :
    (sentEvents n sent).countP (fun e => decide (e.1 = ctx)) = ctxCount n sent ctx := by
  unfold sentEvents ctxCount
  by_cases hg : (sent.isEmpty || decide (sent.length < n)) = true
  · rw [if_pos hg]
    have hlen : sent.length - n = 0 := by
      rcases Bool.or_eq_true_iff.mp hg with h | h
      · simp [List.isEmpty_iff.mp h]
      · have := of_decide_eq_true h
        omega
    simp [hlen]
  · rw [if_neg hg]
    rw [List.countP_map, List.countP_eq_length_filter]
    rfl

theorem countAt_buildFold (corpus : List (List Word)) (n : Nat) (m0 : NGramModel)
    (ctx : List Word) (w : Word) :
    countAt (corpus.foldl (fun m sent => (sentEvents n sent).foldl stepNG m) m0) ctx w
      = countAt m0 ctx w + (corpus.map (fun sent => windowCount n sent ctx w)).sum := by
  induction corpus generalizing m0 with
  | nil => simp
  | cons sent t ih =>
    simp only [List.foldl_cons, List.map_cons, List.sum_cons]
    rw [ih, countAt_foldEvents, countP_sentEvents]
    omega

theorem totalAt_buildFold (corpus : List (List Word)) (n : Nat) (m0 : NGramModel)
    (ctx : List Word) :
    totalAt (corpus.foldl (fun m sent => (sentEvents n sent).foldl stepNG m) m0) ctx
      = totalAt m0 ctx + (corpus.map (fun sent => ctxCount n sent ctx)).sum := by
  induction corpus generalizing m0 with
  | nil => simp
  | cons sent t ih =>
    simp only [List.foldl_cons, List.map_cons, List.sum_cons]
    rw [ih, totalAt_foldEvents, countP_ctx_sentEvents]
    omega

theorem buildNGram_eq (corpus : List (List Word)) (n : Nat) (m : NGramModel)
    (h : buildNGram corpus n = some m) :
    1 ≤ n
    ∧ m = corpus.foldl (fun m1 sent => (sentEvents n sent).foldl stepNG m1)
        ⟨n, [], []⟩ := by
  unfold buildNGram at h
  by_cases hn : n < 1
  · rw [if_pos hn] at h
    exact absurd h (by simp)
  · rw [if_neg hn] at h
    refine ⟨by omega, ?_⟩
    exact (Option.some_injective _ h).symm

theorem n_stepNG (m : NGramModel) (ev : List Word × Word) : (stepNG m ev).n = m.n := rfl

theorem n_foldEvents (evs : List (List Word × Word)) (m : NGramModel) :
    (evs.foldl stepNG m).n = m.n := by
  induction evs generalizing m with
  | nil => rfl
  | cons e t ih => rw [List.foldl_cons, ih, n_stepNG]

theorem n_buildFold (corpus : List (List Word)) (n : Nat) (m0 : NGramModel) :
    (corpus.foldl (fun m sent => (sentEvents n sent).foldl stepNG m) m0).n = m0.n := by
  induction corpus generalizing m0 with
  | nil => rfl
  | cons sent t ih => rw [List.foldl_cons, ih, n_foldEvents]

theorem buildNGram_n (corpus : List (List Word)) (n : Nat) (m : NGramModel)
    (h : buildNGram corpus n = some m) : m.n = n := by
  obtain ⟨-, hm⟩ := buildNGram_eq corpus n m h
  rw [hm, n_buildFold]

theorem ngInv_stepNG (m : NGramModel) (ev : List Word × Word) (h : NGInv m) :
    NGInv (stepNG m ev) := by
  obtain ⟨c0, w0⟩ := ev
  obtain ⟨ha, hb, hc⟩ := h
  refine ⟨?_, ?_, ?_⟩
  · intro ctx
    rw [totalAt_stepNG]
    simp only [stepNG]
    rw [lookupA_ncIncr]
    by_cases h1 : ctx = c0
    · rw [if_pos h1, Option.getD_some, sumVals_cincr]
      rw [ha ctx, h1]
      simp
    · rw [if_neg h1]
      have h2 : ¬ (c0 = ctx) := fun he => h1 he.symm
      rw [ha ctx]
      simp [h2]
  · intro ctx c hg
    simp only [stepNG] at hg
    rw [lookupA_ncIncr] at hg
    by_cases h1 : ctx = c0
    · rw [if_pos h1] at hg
      have hce := Option.some_injective _ hg
      subst hce
      refine ⟨cincr_ne_nil _ _, ?_, ?_⟩
      · apply pos_vals_cincr
        cases hl : lookupA m.nextCounts c0 with
        | none => simp
        | some c1 =>
          simp only [hl, Option.getD_some]
          exact (hb c0 c1 hl).2.1
      · apply nodup_keysOf_cincr
        cases hl : lookupA m.nextCounts c0 with
        | none => simp [keysOf]
        | some c1 =>
          simp only [hl, Option.getD_some]
          exact (hb c0 c1 hl).2.2
    · rw [if_neg h1] at hg
      exact hb ctx c hg
  · intro ctx
    simp only [stepNG]
    have hmem : ctx ∈ keysOf (ncIncr m.nextCounts c0 w0) ↔ ctx ∈ keysOf m.nextCounts ∨ ctx = c0 :=
      mem_keysOf_ncIncr m.nextCounts c0 w0 ctx
    have htot : totalAt (stepNG m (c0, w0)) ctx = totalAt m ctx + if c0 = ctx then 1 else 0 :=
      totalAt_stepNG m (c0, w0) ctx
    simp only [stepNG] at htot
    rw [hmem, htot, hc ctx]
    by_cases h1 : c0 = ctx
    · simp [h1]
    · have h2 : ¬ ctx = c0 := fun he => h1 he.symm
      simp [h1, h2]

theorem ngInv_foldEvents (evs : List (List Word × Word)) (m : NGramModel)
    (h : NGInv m) : NGInv (evs.foldl stepNG m) := by
  induction evs generalizing m with
  | nil => exact h
  | cons e t ih => exact ih _ (ngInv_stepNG m e h)

theorem ngInv_buildFold (corpus : List (List Word)) (n : Nat) (m0 : NGramModel)
    (h : NGInv m0) :
    NGInv (corpus.foldl (fun m sent => (sentEvents n sent).foldl stepNG m) m0) := by
  induction corpus generalizing m0 with
  | nil => exact h
  | cons sent t ih => exact ih _ (ngInv_foldEvents _ _ h)

theorem ngInv_build (corpus : List (List Word)) (n : Nat) (m : NGramModel)
    (h : buildNGram corpus n = some m) : NGInv m := by
  obtain ⟨-, hm⟩ := buildNGram_eq corpus n m h
  have h0 : NGInv (⟨n, [], []⟩ : NGramModel) := by
    refine ⟨?_, ?_, ?_⟩
    · intro ctx; simp [totalAt, lookupD, lookupA, sumVals]
    · intro ctx c hg; simp [lookupA] at hg
    · intro ctx; simp [keysOf, totalAt, lookupD, lookupA]
  rw [hm]
  exact ngInv_buildFold corpus n _ h0

theorem build_filter_fold (corpus : List (List Word)) (n : Nat) (m0 : NGramModel) :
    (corpus.filter (fun sent => decide (n + 1 ≤ sent.length))).foldl
        (fun m sent => (sentEvents n sent).foldl stepNG m) m0
      = corpus.foldl (fun m sent => (sentEvents n sent).foldl stepNG m) m0 := by
  induction corpus generalizing m0 with
  | nil => rfl
  | cons sent t ih =>
    by_cases hp : n + 1 ≤ sent.length
    · rw [List.filter_cons_of_pos (by simpa using hp), List.foldl_cons, List.foldl_cons, ih]
    · rw [List.filter_cons_of_neg (by simpa using hp), List.foldl_cons]
      have he : sentEvents n sent = [] := by
        unfold sentEvents
        by_cases hg : (sent.isEmpty || decide (sent.length < n)) = true
        · rw [if_pos hg]
        · rw [if_neg hg]
          have h0 : sent.length - n = 0 := by omega
          rw [h0]
          rfl
      rw [he, List.foldl_nil, ih]

/-- C4: for every corpus and order `N ≥ 1`, construction records, for each
sentence, exactly its windows of `N` consecutive tokens followed by a
token: the stored count of `(context, next)` is the number of such
windows over the whole corpus, the stored total likewise; each window
with a follower makes its context a recorded key with positive count and
total; and sentences of length `< N + 1` contribute nothing (building
from the corpus without them yields the very same model). -/
theorem c4_construction_counts_windows (corpus : List (List Word)) (n : Nat)
    (m : NGramModel) (h : buildNGram corpus n = some m) :
    (∀ (ctx : List Word) (w : Word),
        countAt m ctx w = (corpus.map (fun sent => windowCount n sent ctx w)).sum)
    ∧ (∀ ctx : List Word,
        totalAt m ctx = (corpus.map (fun sent => ctxCount n sent ctx)).sum)
    ∧ (∀ sent ∈ corpus, ∀ i : Nat, i + n < sent.length →
        0 < countAt m ((sent.drop i).take n) (sent.getD (i + n) [])
        ∧ 0 < totalAt m ((sent.drop i).take n)
        ∧ (sent.drop i).take n ∈ keysOf m.nextCounts)
    ∧ buildNGram (corpus.filter (fun sent => decide (n + 1 ≤ sent.length))) n = some m := by
  obtain ⟨hn1, hm⟩ := buildNGram_eq corpus n m h
  have hcount : ∀ (ctx : List Word) (w : Word),
      countAt m ctx w = (corpus.map (fun sent => windowCount n sent ctx w)).sum := by
    intro ctx w
    rw [hm, countAt_buildFold]
    simp [countAt, lookupD, lookupA]
  have htotal : ∀ ctx : List Word,
      totalAt m ctx = (corpus.map (fun sent => ctxCount n sent ctx)).sum := by
    intro ctx
    rw [hm, totalAt_buildFold]
    simp [totalAt, lookupD, lookupA]
  refine ⟨hcount, htotal, ?_, ?_⟩
  · intro sent hs i hi
    have hwc : 1 ≤ windowCount n sent ((sent.drop i).take n) (sent.getD (i + n) []) := by
      unfold windowCount
      have hmem : i ∈ (List.range (sent.length - n)).filter
          (fun j => decide ((sent.drop j).take n = (sent.drop i).take n)
            && decide (sent.getD (j + n) [] = sent.getD (i + n) [])) := by
        rw [List.mem_filter]
        exact ⟨List.mem_range.mpr (by omega), by simp⟩
      exact List.length_pos_of_mem hmem
    have hcc : 1 ≤ ctxCount n sent ((sent.drop i).take n) := by
      unfold ctxCount
      have hmem : i ∈ (List.range (sent.length - n)).filter
          (fun j => decide ((sent.drop j).take n = (sent.drop i).take n)) := by
        rw [List.mem_filter]
        exact ⟨List.mem_range.mpr (by omega), by simp⟩
      exact List.length_pos_of_mem hmem
    have hwle : windowCount n sent ((sent.drop i).take n) (sent.getD (i + n) [])
        ≤ (corpus.map (fun s => windowCount n s ((sent.drop i).take n) (sent.getD (i + n) []))).sum :=
      List.single_le_sum (fun x _ => Nat.zero_le x) _ (List.mem_map_of_mem _ hs)
    have hcle : ctxCount n sent ((sent.drop i).take n)
        ≤ (corpus.map (fun s => ctxCount n s ((sent.drop i).take n))).sum :=
      List.single_le_sum (fun x _ => Nat.zero_le x) _ (List.mem_map_of_mem _ hs)
    have h1 : 0 < countAt m ((sent.drop i).take n) (sent.getD (i + n) []) := by
      rw [hcount]; omega
    have h2 : 0 < totalAt m ((sent.drop i).take n) := by
      rw [htotal]; omega
    exact ⟨h1, h2, ((ngInv_build corpus n m h).2.2 _).mpr h2⟩
  · unfold buildNGram
    rw [if_neg (by omega)]
    rw [build_filter_fold, ← hm]

/-- C5: a next-word query fails (the `ValueError`) exactly when the given
sequence is shorter than the order `N`; on a sequence of length `≥ N`
whose last `N` tokens never occurred as a recorded window during
construction it returns two empty lists (a plain `ok`, distinct from the
failure) and leaves the model unchanged. -/
theorem c5_query_error_iff_short (corpus : List (List Word)) (n : Nat)
    (m : NGramModel) (h : buildNGram corpus n = some m) (seq : List Word) :
    (getNextWordsAndProbs m seq = Except.error () ↔ seq.length < n)
    ∧ (n ≤ seq.length →
        (∀ sent ∈ corpus, ∀ i : Nat, i + n < sent.length →
            (sent.drop i).take n ≠ seq.drop (seq.length - n)) →
        getNextWordsAndProbs m seq = Except.ok (([], []), m)) := by
  have hn := buildNGram_n corpus n m h
  have hInv := ngInv_build corpus n m h
  constructor
  · constructor
    · intro he
      by_cases h1 : seq.length < m.n
      · omega
      · exfalso
        simp only [getNextWordsAndProbs, if_neg h1] at he
        by_cases h2 : (lookupA m.nextCounts (seq.drop (seq.length - m.n))).isNone = true
        · rw [if_pos h2] at he
          exact Except.noConfusion he
        · rw [if_neg h2] at he
          exact Except.noConfusion he
    · intro hlt
      have h1 : seq.length < m.n := by omega
      simp only [getNextWordsAndProbs, if_pos h1]
  · intro hlen hno
    have h1 : ¬ seq.length < m.n := by omega
    have htot : totalAt m (seq.drop (seq.length - m.n)) = 0 := by
      rw [hn]
      obtain ⟨hn1, hm⟩ := buildNGram_eq corpus n m h
      rw [hm, totalAt_buildFold]
      have hinit : totalAt (⟨n, [], []⟩ : NGramModel) (seq.drop (seq.length - n)) = 0 := by
        simp [totalAt, lookupD, lookupA]
      rw [hinit]
      have hz : ∀ x ∈ corpus.map (fun sent => ctxCount n sent (seq.drop (seq.length - n))), x = 0 := by
        intro x hx
        obtain ⟨sent, hs, hxe⟩ := List.mem_map.mp hx
        subst hxe
        unfold ctxCount
        rw [List.length_eq_zero]
        rw [List.filter_eq_nil]
        intro j hj
        rw [List.mem_range] at hj
        have hjn : j + n < sent.length := by omega
        have := hno sent hs j hjn
        simpa using this
      rw [List.sum_eq_zero hz]
      omega
    have hkey : seq.drop (seq.length - m.n) ∉ keysOf m.nextCounts := by
      intro hk
      have := (hInv.2.2 _).mp hk
      omega
    have hlook : lookupA m.nextCounts (seq.drop (seq.length - m.n)) = none :=
      (lookupA_eq_none_iff _ _).mpr hkey
    simp only [getNextWordsAndProbs, if_neg h1, hlook]
    rfl

theorem sum_map_div (l : List (Word × Nat)) (t : ℚ) :
    (l.map (fun p => ((p.2 : Nat) : ℚ) / t)).sum = ((sumVals l : Nat) : ℚ) / t := by
  induction l with
  | nil => simp [sumVals]
  | cons p tl ih =>
    simp only [List.map_cons, List.sum_cons, sumVals, List.map] at *
    rw [ih, div_add_div_same]
    push_cast
    ring_nf

/-- C6: in every constructed context model the per-context counter sums
equal the stored totals, and a successful non-empty query returns
probabilities that sum to exactly 1 (as exact rationals). -/
theorem c6_probs_sum_to_one (corpus : List (List Word)) (n : Nat)
    (m : NGramModel) (h : buildNGram corpus n = some m) :
    (∀ ctx ∈ keysOf m.nextCounts,
        sumVals ((lookupA m.nextCounts ctx).getD []) = totalAt m ctx)
    ∧ (∀ seq : List Word, m.n ≤ seq.length →
        seq.drop (seq.length - m.n) ∈ keysOf m.nextCounts →
        ∃ (ws : List Word) (ps : List ℚ),
          getNextWordsAndProbs m seq = Except.ok ((ws, ps), m) ∧ ps.sum = 1) := by
  have hInv := ngInv_build corpus n m h
  constructor
  · intro ctx _
    exact (hInv.1 ctx).symm
  · intro seq hlen hkey
    have h1 : ¬ seq.length < m.n := by omega
    cases hlook : lookupA m.nextCounts (seq.drop (seq.length - m.n)) with
    | none => exact absurd hkey ((lookupA_eq_none_iff m.nextCounts _).mp hlook)
    | some c =>
      refine ⟨c.map Prod.fst,
        c.map (fun p => ((p.2 : Nat) : ℚ) / ((lookupD m.contextTotals (seq.drop (seq.length - m.n)) 0 : Nat) : ℚ)),
        ?_, ?_⟩
      · simp only [getNextWordsAndProbs, if_neg h1, hlook]
        rfl
      · rw [sum_map_div]
        have htot : totalAt m (seq.drop (seq.length - m.n)) = sumVals c := by
          have := hInv.1 (seq.drop (seq.length - m.n))
          rw [hlook] at this
          simpa using this
        have hpos : 0 < totalAt m (seq.drop (seq.length - m.n)) :=
          (hInv.2.2 _).mp hkey
        simp only [totalAt] at htot hpos
        rw [← htot]
        exact div_self (by
          rw [Nat.cast_ne_zero]
          omega)

/-- C10: queries are read-only. A successful `get_next_words_and_probs`
returns the model with context table and totals untouched (in particular
an unseen context inserts no empty entry, thanks to the `in` guard before
the `defaultdict` access), and any sequence of queries leaves the model
exactly as constructed; `search_prefix` and `get_words_and_probs` are
pure functions of the trie and completor. -/
theorem c10_queries_preserve_models :
    (∀ (m : NGramModel) (seq : List Word) (r : List Word × List ℚ) (m2 : NGramModel),
        getNextWordsAndProbs m seq = Except.ok (r, m2) →
        m2 = m ∧ m2.nextCounts = m.nextCounts ∧ m2.contextTotals = m.contextTotals)
    ∧ (∀ (m : NGramModel) (qs : List (List Word)), runQueries m qs = m)
    ∧ (∀ (t : Trie) (p : Word) (wc : WordCompletor) (q : Word),
        searchPrefix t p = searchPrefix t p ∧ getWordsAndProbs wc q = getWordsAndProbs wc q) := by
  have hone : ∀ (m : NGramModel) (seq : List Word) (r : List Word × List ℚ) (m2 : NGramModel),
      getNextWordsAndProbs m seq = Except.ok (r, m2) → m2 = m := by
    intro m seq r m2 h
    by_cases h1 : seq.length < m.n
    · simp only [getNextWordsAndProbs, if_pos h1] at h
      exact Except.noConfusion h
    · simp only [getNextWordsAndProbs, if_neg h1] at h
      cases hlook : lookupA m.nextCounts (seq.drop (seq.length - m.n)) with
      | none =>
        rw [hlook] at h
        simp only [Option.isNone_none, if_pos] at h
        have h2 := Except.ok.inj h
        exact (congrArg Prod.snd h2).symm
      | some c =>
        rw [hlook] at h
        simp only [Option.isNone_some, Option.isSome_some, Option.getD_some,
          Bool.false_eq_true, if_false, if_true] at h
        have h2 := Except.ok.inj h
        exact (congrArg Prod.snd h2).symm
  refine ⟨fun m seq r m2 h => ⟨hone m seq r m2 h, by rw [hone m seq r m2 h], by rw [hone m seq r m2 h]⟩, ?_, ?_⟩
  · intro m qs
    induction qs with
    | nil => rfl
    | cons q t ih =>
      simp only [runQueries, List.foldl_cons]
      have hstep : (match getNextWordsAndProbs m q with
          | Except.ok (_, m2) => m2
          | Except.error _ => m) = m := by
        cases hq : getNextWordsAndProbs m q with
        | error e => rfl
        | ok pr =>
          obtain ⟨r, m2⟩ := pr
          exact hone m q r m2 hq
      rw [hstep]
      simpa [runQueries] using ih
  · intro t p wc q
    exact ⟨rfl, rfl⟩

theorem c4_witness :
    buildNGram corpusBC 1 = some ngBC
    ∧ countAt ngBC [['a']] ['c']
        = (corpusBC.map (fun sent => windowCount 1 sent [['a']] ['c'])).sum
    ∧ buildNGram (corpusBC.filter (fun sent => decide (1 + 1 ≤ sent.length))) 1
        = some ngBC := by
  have hb : buildNGram corpusBC 1 = some ngBC := by with_unfolding_all decide
  have h := c4_construction_counts_windows corpusBC 1 ngBC hb
  exact ⟨hb, h.1 [['a']] ['c'], h.2.2.2⟩

theorem c5_witness :
    buildNGram corpusBC 1 = some ngBC
    ∧ (getNextWordsAndProbs ngBC [['a'], ['b'], ['q']] = Except.error () ↔ ([['a'], ['b'], ['q']] : List Word).length < 1)
    ∧ getNextWordsAndProbs ngBC [['q']] = Except.ok (([], []), ngBC) := by
  have hb : buildNGram corpusBC 1 = some ngBC := by with_unfolding_all decide
  refine ⟨hb, (c5_query_error_iff_short corpusBC 1 ngBC hb [['a'], ['b'], ['q']]).1, ?_⟩
  apply (c5_query_error_iff_short corpusBC 1 ngBC hb [['q']]).2
  · decide
  · intro sent hs i hi
    fin_cases hs <;> simp at hi <;>
      (have hz : i = 0 := by omega) <;> subst hz <;> decide

theorem c6_witness :
    buildNGram corpusBC 1 = some ngBC
    ∧ ngBC.n ≤ ([['a']] : List Word).length
    ∧ ([['a']] : List Word).drop (([['a']] : List Word).length - ngBC.n) ∈ keysOf ngBC.nextCounts
    ∧ ∃ (ws : List Word) (ps : List ℚ),
        getNextWordsAndProbs ngBC [['a']] = Except.ok ((ws, ps), ngBC) ∧ ps.sum = 1 := by
  have hb : buildNGram corpusBC 1 = some ngBC := by with_unfolding_all decide
  refine ⟨hb, by with_unfolding_all decide, by with_unfolding_all decide, ?_⟩
  exact (c6_probs_sum_to_one corpusBC 1 ngBC hb).2 [['a']]
    (by with_unfolding_all decide) (by with_unfolding_all decide)

theorem c10_witness :
    getNextWordsAndProbs ngBC [['a']]
        = Except.ok (([['b'], ['c']],
            [((1 : Nat) : ℚ) / ((3 : Nat) : ℚ), ((2 : Nat) : ℚ) / ((3 : Nat) : ℚ)]), ngBC)
    ∧ ngBC = ngBC
    ∧ runQueries ngBC [[['a']], [['q']], [['a'], ['b']]] = ngBC := by
  have hq : getNextWordsAndProbs ngBC [['a']]
      = Except.ok (([['b'], ['c']],
          [((1 : Nat) : ℚ) / ((3 : Nat) : ℚ), ((2 : Nat) : ℚ) / ((3 : Nat) : ℚ)]), ngBC) := by
    with_unfolding_all rfl
  exact ⟨hq, (c10_queries_preserve_models.1 ngBC [['a']] _ ngBC hq).1,
    c10_queries_preserve_models.2.1 ngBC _⟩

/-- C2: end-to-end example over the corpus
`[["hello","world"],["hello","there"],["how","are","you"]]` with order 1:
the word completor answers the prefix query `"hel"` with exactly
`{"hello": 2/7}` (7 tokens in total), and on buffer `"hel"` the policy
returns three suggestions backfilled by global frequency with top
suggestion `"hello"` and ghost suffix `"lo"` (`"hello"` starts with
`"hel"`). -/
theorem c2_end_to_end_example :
    getWordsAndProbs wcEx ['h','e','l']
      = ([['h','e','l','l','o']], [(2 : ℚ) / 7])
    ∧ (buildNGram corpusEx 1).map (fun m => updateText wcEx m ['h','e','l'])
      = some ([['h','e','l','l','o'], ['w','o','r','l','d'], ['t','h','e','r','e']],
              ['l','o'])
    ∧ List.isPrefixOf ['h','e','l'] ['h','e','l','l','o'] = true
    ∧ (['h','e','l','l','o'] : Word).drop (['h','e','l'] : Word).length = ['l','o'] := by
  with_unfolding_all decide

/-- C7: `get_words_and_probs` returns the full retained vocabulary for the
empty prefix and the trie's match result otherwise; every returned
probability is the word's retained count over the total mass; a zero
total mass or an empty match yields two empty lists (the division is
never reached). -/
theorem c7_word_completor_query (wc : WordCompletor) (pre : Word) :
    (wc.totalCount = 0 → getWordsAndProbs wc pre = ([], []))
    ∧ (pre = [] → wc.totalCount ≠ 0 → keysOf wc.counter ≠ [] →
        (getWordsAndProbs wc pre).1 = keysOf wc.counter)
    ∧ (pre ≠ [] → wc.totalCount ≠ 0 → searchPrefix wc.tree pre ≠ [] →
        (getWordsAndProbs wc pre).1 = searchPrefix wc.tree pre)
    ∧ (pre ≠ [] → searchPrefix wc.tree pre = [] → getWordsAndProbs wc pre = ([], []))
    ∧ (pre = [] → keysOf wc.counter = [] → getWordsAndProbs wc pre = ([], []))
    ∧ (∀ i : Nat, i < (getWordsAndProbs wc pre).1.length →
        (getWordsAndProbs wc pre).2.getD i 0
          = ((lookupD wc.counter ((getWordsAndProbs wc pre).1.getD i []) 0 : Nat) : ℚ)
              / ((wc.totalCount : Nat) : ℚ)) := by
  refine ⟨?_, ?_, ?_, ?_, ?_, ?_⟩
  · intro h0
    simp [getWordsAndProbs, h0]
  · intro hp h0 hne
    simp only [getWordsAndProbs, hp, List.isEmpty_nil, if_true]
    rw [if_neg (by simp [h0, List.isEmpty_iff, hne])]
  · intro hp h0 hne
    have hie : pre.isEmpty = false := by cases pre <;> simp_all
    simp only [getWordsAndProbs, hie, Bool.false_eq_true, if_false]
    rw [if_neg (by simp [h0, List.isEmpty_iff, hne])]
  · intro hp hnil
    have hie : pre.isEmpty = false := by cases pre <;> simp_all
    simp only [getWordsAndProbs, hie, Bool.false_eq_true, if_false]
    rw [if_pos (by simp [hnil])]
  · intro hp hnil
    simp only [getWordsAndProbs, hp, List.isEmpty_nil, if_true]
    rw [if_pos (by simp [hnil])]
  · intro i hi
    by_cases hz : (if pre.isEmpty then keysOf wc.counter else searchPrefix wc.tree pre).isEmpty
        || decide (wc.totalCount = 0)
    · exfalso
      simp only [getWordsAndProbs, if_pos hz] at hi
      exact Nat.not_lt_zero i hi
    · simp only [getWordsAndProbs, if_neg hz] at hi ⊢
      set ws := if pre.isEmpty then keysOf wc.counter else searchPrefix wc.tree pre with hws
      cases hw : ws[i]? with
      | none =>
        rw [List.getElem?_eq_none_iff] at hw
        have hi2 : i < ws.length := hi
        omega
      | some a =>
        have h1 : (ws.map (fun w => ((lookupD wc.counter w 0 : Nat) : ℚ)
            / ((wc.totalCount : Nat) : ℚ))).getD i 0
            = ((lookupD wc.counter a 0 : Nat) : ℚ) / ((wc.totalCount : Nat) : ℚ) := by
          rw [List.getD_eq_getElem?_getD, List.getElem?_map, hw]
          rfl
        have h2 : ws.getD i [] = a := by
          rw [List.getD_eq_getElem?_getD, hw]
          rfl
        rw [h1, h2]

theorem c7_witness :
    (['h','e','l'] : Word) ≠ []
    ∧ wcEx.totalCount ≠ 0
    ∧ searchPrefix wcEx.tree ['h','e','l'] ≠ []
    ∧ (getWordsAndProbs wcEx ['h','e','l']).1 = searchPrefix wcEx.tree ['h','e','l']
    ∧ 0 < (getWordsAndProbs wcEx ['h','e','l']).1.length
    ∧ (getWordsAndProbs wcEx ['h','e','l']).2.getD 0 0
        = ((lookupD wcEx.counter ((getWordsAndProbs wcEx ['h','e','l']).1.getD 0 []) 0 : Nat) : ℚ)
            / ((wcEx.totalCount : Nat) : ℚ) := by
  have h := c7_word_completor_query wcEx (['h','e','l'] : Word)
  exact ⟨by decide, by with_unfolding_all decide, by with_unfolding_all decide,
    h.2.2.1 (by decide) (by with_unfolding_all decide) (by with_unfolding_all decide),
    by with_unfolding_all decide,
    h.2.2.2.2.2 0 (by with_unfolding_all decide)⟩

/-- C8 (amended): `suggest_text` returns an empty list on empty input and
when the last token has no completion; otherwise it returns exactly one
continuation for every `n_texts ≥ 1` (the final `[:n_texts]` truncation
makes `n_texts = 0` return an empty list, so "regardless of `n_texts`"
fails only there). -/
theorem c8_suggest_text_single (wc : WordCompletor) (ng : NGramModel)
    (tokens : List Word) (nWords nTexts : Nat) :
    (tokens = [] → suggestText wc ng tokens nWords nTexts = [])
    ∧ ((getWordsAndProbs wc (tokens.getLastD [])).1 = [] →
        suggestText wc ng tokens nWords nTexts = [])
    ∧ (tokens ≠ [] → (getWordsAndProbs wc (tokens.getLastD [])).1 ≠ [] → 1 ≤ nTexts →
        (suggestText wc ng tokens nWords nTexts).length = 1) := by
  refine ⟨?_, ?_, ?_⟩
  · intro h
    subst h
    rfl
  · intro h
    have h2 : (getWordsAndProbs wc (tokens.getLast?.getD [])).1 = [] := by
      rw [← List.getLastD_eq_getLast?]
      exact h
    by_cases ht : tokens.isEmpty
    · simp [suggestText, ht]
    · simp only [suggestText, ht, Bool.false_eq_true, if_false]
      rw [if_pos (by simp [h2])]
  · intro ht hc hn
    have hc2 : (getWordsAndProbs wc (tokens.getLast?.getD [])).1 ≠ [] := by
      rw [← List.getLastD_eq_getLast?]
      exact hc
    have ht2 : tokens.isEmpty = false := by
      cases tokens <;> simp_all
    simp only [suggestText, ht2, Bool.false_eq_true, if_false]
    rw [if_neg (by simp [List.isEmpty_iff, hc2])]
    rw [List.length_take]
    simp
    omega

theorem c8_counterexample :
    ([['h','e','l']] : List Word) ≠ []
    ∧ (getWordsAndProbs wcEx (([['h','e','l']] : List Word).getLastD [])).1 ≠ []
    ∧ suggestText wcEx ngEx [['h','e','l']] 3 0 = []
    ∧ (suggestText wcEx ngEx [['h','e','l']] 3 0).length ≠ 1 := by
  with_unfolding_all decide

theorem c8_witness :
    ([['h','e','l']] : List Word) ≠ []
    ∧ (getWordsAndProbs wcEx (([['h','e','l']] : List Word).getLastD [])).1 ≠ []
    ∧ (suggestText wcEx ngEx [['h','e','l']] 3 1).length = 1 :=
  ⟨by decide, by with_unfolding_all decide,
   (c8_suggest_text_single wcEx ngEx [['h','e','l']] 3 1).2.2 (by decide)
     (by with_unfolding_all decide) (by decide)⟩

theorem backfillLoop_isPrefix (ranked : List (Word × ℚ)) (filled : List Word) :
    filled <+: backfillLoop filled ranked := by
  induction ranked generalizing filled with
  | nil => exact List.prefix_refl _
  | cons p rest ih =>
    obtain ⟨w, q⟩ := p
    simp only [backfillLoop]
    by_cases hw : w ∈ filled
    · rw [if_pos hw]
      exact ih filled
    · rw [if_neg hw]
      by_cases h3 : (filled ++ [w]).length = 3
      · rw [if_pos h3]
        exact List.prefix_append _ _
      · rw [if_neg h3]
        exact (List.prefix_append filled [w]).trans (ih (filled ++ [w]))

theorem c1_counterexample :
    splitWs ['a', ' '] = [['a']]
    ∧ (['a', ' '] : List Char).getLast?.map pySpace = some true
    ∧ nextWordsOr ngBC [['a']] = [['b'], ['c']]
    ∧ (updateText wcBC ngBC ['a', ' ']).1.take 2 = [['b'], ['c']]
    ∧ ¬ obsProb ngBC [['a']] ['b'] ≥ obsProb ngBC [['a']] ['c'] := by
  with_unfolding_all decide

/-- C1 (amended): on a buffer whose last character is whitespace and that
holds at least one token, the policy queries the context model with all
tokens as context and takes up to three of the returned next-words — in
the model's returned order (first-observation order of the underlying
counter), which need not be descending by observed probability — as the
initial suggestion set: they form the head of the final suggestion
list. -/
theorem c1_whitespace_initial_suggestions (wc : WordCompletor) (ng : NGramModel)
    (value : List Char)
    (hstrip : value.dropWhile (fun c => pySpace c) ≠ [])
    (hlast : value.getLast?.map pySpace = some true) :
    (updateText wc ng value).1.take
        (min 3 (nextWordsOr ng (splitWs (value.dropWhile (fun c => pySpace c)))).length)
      = (nextWordsOr ng (splitWs (value.dropWhile (fun c => pySpace c)))).take 3 := by
  have hie : (value.dropWhile (fun c => pySpace c)).isEmpty = false := by
    simp [List.isEmpty_iff, hstrip]
  obtain ⟨lc, hlc, hlcs⟩ : ∃ c, value.getLast? = some c ∧ pySpace c = true := by
    cases hgl : value.getLast? with
    | none => rw [hgl] at hlast; simp at hlast
    | some c =>
      rw [hgl] at hlast
      simp at hlast
      exact ⟨c, rfl, hlast⟩
  set ws := nextWordsOr ng (splitWs (value.dropWhile (fun c => pySpace c))) with hws
  simp only [updateText, hie, Bool.false_eq_true, if_false, hlc, hlcs, if_true, ← hws]
  by_cases hlen : 3 ≤ ws.length
  · have htk : (ws.take 3).length = 3 := by
      rw [List.length_take]
      omega
    simp only [backfillSuggestions, htk, le_refl, if_true]
    rw [List.take_take, List.take_take]
    have hmin : min 3 ws.length = 3 := by omega
    simp [hmin]
  · have htk : ws.take 3 = ws := List.take_of_length_le (by omega)
    rw [htk]
    have hmin : min 3 ws.length = ws.length := by omega
    rw [hmin]
    have hlt : ¬ 3 ≤ ws.length := by omega
    simp only [backfillSuggestions, if_neg hlt]
    exact (List.prefix_iff_eq_take.mp (backfillLoop_isPrefix
      (sortDesc ((getWordsAndProbs wc []).1.zip (getWordsAndProbs wc []).2)) ws)).symm

theorem c1_witness :
    (['h','e','l','l','o',' '] : List Char).dropWhile (fun c => pySpace c) ≠ []
    ∧ (['h','e','l','l','o',' '] : List Char).getLast?.map pySpace = some true
    ∧ (updateText wcEx ngEx ['h','e','l','l','o',' ']).1.take
        (min 3 (nextWordsOr ngEx (splitWs ((['h','e','l','l','o',' '] : List Char).dropWhile (fun c => pySpace c)))).length)
      = (nextWordsOr ngEx (splitWs ((['h','e','l','l','o',' '] : List Char).dropWhile (fun c => pySpace c)))).take 3 :=
  ⟨by decide, by decide,
   c1_whitespace_initial_suggestions wcEx ngEx ['h','e','l','l','o',' ']
     (by decide) (by decide)⟩

/- ### Trie lemmas -/

theorem lookupA_some_mem {α β : Type} [DecidableEq α] (l : List (α × β)) (k : α) (v : β)
    (h : lookupA l k = some v) : (k, v) ∈ l := by
  induction l with
  | nil => simp [lookupA] at h
  | cons p t ih =>
    obtain ⟨k1, v1⟩ := p
    by_cases h1 : k1 = k
    · subst h1
      simp only [lookupA, if_pos rfl] at h
      have := Option.some_injective _ h
      subst this
      exact List.mem_cons_self _ _
    · simp only [lookupA, if_neg h1] at h
      exact List.mem_cons_of_mem _ (ih h)

theorem lookupA_eq_some_iff_of_nodup {α β : Type} [DecidableEq α]
    (l : List (α × β)) (hnd : (keysOf l).Nodup) (k : α) (v : β) :
    lookupA l k = some v ↔ (k, v) ∈ l := by
  constructor
  · exact lookupA_some_mem l k v
  · intro hm
    induction l with
    | nil => simp at hm
    | cons p t ih =>
      obtain ⟨k1, v1⟩ := p
      rcases List.mem_cons.mp hm with he | ht
      · rw [Prod.mk.injEq] at he
        obtain ⟨he1, he2⟩ := he
        subst he1; subst he2
        simp [lookupA]
      · have hk1 : ¬ k1 = k := by
          intro hk
          subst hk
          have : k1 ∈ keysOf t := by
            simp only [keysOf, List.mem_map]
            exact ⟨(k1, v), ht, rfl⟩
          simp only [keysOf, List.map_cons, List.nodup_cons] at hnd
          exact hnd.1 this
        simp only [lookupA, if_neg hk1]
        exact ih (by
          simp only [keysOf, List.map_cons, List.nodup_cons] at hnd
          exact hnd.2) ht

theorem lookupA_updA_present {α β : Type} [DecidableEq α] (l : List (α × β))
    (k : α) (v0 x : β) (h : lookupA l k = some v0) (k2 : α) :
    lookupA (updA l k x) k2 = if k2 = k then some x else lookupA l k2 := by
  induction l with
  | nil => simp [lookupA] at h
  | cons p t ih =>
    obtain ⟨k1, v1⟩ := p
    by_cases h1 : k1 = k
    · subst h1
      simp only [updA, if_pos rfl, lookupA]
      by_cases h2 : k1 = k2
      · subst h2
        simp [lookupA]
      · have h3 : ¬ k2 = k1 := fun he => h2 he.symm
        simp [lookupA, h2, h3]
    · simp only [lookupA, if_neg h1] at h
      simp only [updA, if_neg h1, lookupA]
      by_cases h2 : k1 = k2
      · subst h2
        simp [lookupA, h1]
      · simp only [if_neg h2]
        exact ih h

theorem keysOf_updA_present {α β : Type} [DecidableEq α] (l : List (α × β))
    (k : α) (v0 x : β) (h : lookupA l k = some v0) :
    keysOf (updA l k x) = keysOf l := by
  induction l with
  | nil => simp [lookupA] at h
  | cons p t ih =>
    obtain ⟨k1, v1⟩ := p
    by_cases h1 : k1 = k
    · subst h1
      simp [updA, keysOf]
    · simp only [lookupA, if_neg h1] at h
      simp only [updA, if_neg h1, keysOf, List.map_cons]
      have ihh := ih h
      simp only [keysOf] at ihh
      rw [ihh]

theorem mem_updA {α β : Type} [DecidableEq α] (l : List (α × β)) (k : α) (x : β)
    (p : α × β) (h : p ∈ updA l k x) : p ∈ l ∨ p = (k, x) := by
  induction l with
  | nil =>
    simp [updA] at h
    exact Or.inr h
  | cons q t ih =>
    obtain ⟨k1, v1⟩ := q
    by_cases h1 : k1 = k
    · subst h1
      simp only [updA, if_pos rfl] at h
      rcases List.mem_cons.mp h with he | ht
      · exact Or.inr he
      · exact Or.inl (List.mem_cons_of_mem _ ht)
    · simp only [updA, if_neg h1] at h
      rcases List.mem_cons.mp h with he | ht
      · exact Or.inl (he ▸ List.mem_cons_self _ _)
      · rcases ih ht with h2 | h2
        · exact Or.inl (List.mem_cons_of_mem _ h2)
        · exact Or.inr h2

theorem lookupA_append {α β : Type} [DecidableEq α] (l1 l2 : List (α × β)) (k : α) :
    lookupA (l1 ++ l2) k
      = match lookupA l1 k with
        | some v => some v
        | none => lookupA l2 k := by
  induction l1 with
  | nil => simp [lookupA]
  | cons p t ih =>
    obtain ⟨k1, v1⟩ := p
    by_cases h1 : k1 = k
    · simp [lookupA, h1]
    · simp only [List.cons_append, lookupA, if_neg h1]
      exact ih

theorem containsT_emptyTrie (w : Word) : containsT (Trie.mk [] false) w = false := by
  cases w with
  | nil => rfl
  | cons c rest => simp [containsT, lookupA]

theorem containsT_nil_eq (cs : List (Char × Trie)) (e : Bool) :
    containsT (Trie.mk cs e) [] = e := rfl

theorem containsT_cons_eq (cs : List (Char × Trie)) (e : Bool) (d : Char) (wr : Word) :
    containsT (Trie.mk cs e) (d :: wr)
      = match lookupA cs d with
        | none => false
        | some child => containsT child wr := rfl

theorem containsT_insertT (v : Word) (t : Trie) (w : Word) :
    containsT (insertT t v) w = true ↔ w = v ∨ containsT t w = true := by
  induction v generalizing t w with
  | nil =>
    obtain ⟨cs, e⟩ := t
    cases w with
    | nil => simp [insertT, containsT_nil_eq]
    | cons d wr =>
      simp only [insertT, containsT_cons_eq]
      simp
  | cons c vr ih =>
    obtain ⟨cs, e⟩ := t
    cases hl : lookupA cs c with
    | some child =>
      cases w with
      | nil =>
        simp only [insertT, hl, containsT_nil_eq]
        simp
      | cons d wr =>
        simp only [insertT, hl, containsT_cons_eq]
        rw [lookupA_updA_present cs c child _ hl d]
        by_cases hdc : d = c
        · subst hdc
          rw [if_pos rfl, hl]
          rw [ih child wr]
          simp
        · rw [if_neg hdc]
          simp [hdc]
    | none =>
      cases w with
      | nil =>
        simp only [insertT, hl, containsT_nil_eq]
        simp
      | cons d wr =>
        simp only [insertT, hl, containsT_cons_eq]
        rw [lookupA_append]
        by_cases hdc : d = c
        · subst hdc
          simp [hl, lookupA, ih, containsT_emptyTrie]
        · have hne : ¬ c = d := fun he => hdc he.symm
          cases hld : lookupA cs d with
          | some ch2 => simp [hld, hdc]
          | none => simp [hld, lookupA, hne, hdc]

theorem mem_dedupFirst {α : Type} [DecidableEq α] : ∀ (l : List α) (a : α),
    a ∈ dedupFirst l ↔ a ∈ l
  | [], a => by simp [dedupFirst]
  | b :: t, a => by
    rw [show dedupFirst (b :: t) = b :: dedupFirst (t.filter (fun x => x ≠ b)) from by
      rw [dedupFirst]]
    simp only [List.mem_cons]
    rw [mem_dedupFirst (t.filter (fun x => x ≠ b)) a]
    simp only [List.mem_filter, decide_eq_true_eq]
    by_cases hab : a = b
    · simp [hab]
    · simp [hab]
termination_by l => l.length
decreasing_by
  simp only [List.length_cons]
  have := List.length_filter_le (fun x => decide (x ≠ b)) t
  omega

theorem containsT_foldIns (l : List Word) (t : Trie) (w : Word) :
    containsT (l.foldl insertT t) w = true ↔ w ∈ l ∨ containsT t w = true := by
  induction l generalizing t with
  | nil => simp
  | cons v rest ih =>
    simp only [List.foldl_cons, List.mem_cons]
    rw [ih, containsT_insertT]
    tauto

theorem containsT_buildTrie (vocab : List Word) (w : Word) :
    containsT (buildTrie vocab) w = true ↔ w ∈ vocab := by
  unfold buildTrie
  rw [containsT_foldIns, containsT_emptyTrie, mem_dedupFirst]
  simp

theorem wf_insertT (v : Word) (t : Trie) (h : TrieWF t) : TrieWF (insertT t v) := by
  induction v generalizing t with
  | nil =>
    obtain ⟨cs, e⟩ := t
    cases h with
    | mk hnd hch => exact TrieWF.mk hnd hch
  | cons c vr ih =>
    obtain ⟨cs, e⟩ := t
    cases h with
    | mk hnd hch =>
      cases hl : lookupA cs c with
      | some child =>
        simp only [insertT, hl]
        refine TrieWF.mk ?_ ?_
        · rw [keysOf_updA_present cs c child _ hl]
          exact hnd
        · intro p hp
          rcases mem_updA cs c _ p hp with hm | he
          · exact hch p hm
          · rw [he]
            exact ih child (hch (c, child) (lookupA_some_mem cs c child hl))
      | none =>
        simp only [insertT, hl]
        refine TrieWF.mk ?_ ?_
        · simp only [keysOf, List.map_append, List.map_cons, List.map_nil]
          refine List.Nodup.append hnd (List.nodup_singleton c) ?_
          intro a ha hb
          simp at hb
          rw [hb] at ha
          exact ((lookupA_eq_none_iff cs c).mp hl) ha
        · intro p hp
          rcases List.mem_append.mp hp with hm | he
          · exact hch p hm
          · simp at he
            rw [he]
            exact ih (Trie.mk [] false) (TrieWF.mk (by simp [keysOf]) (by simp))

theorem wf_foldIns (l : List Word) (t : Trie) (h : TrieWF t) :
    TrieWF (l.foldl insertT t) := by
  induction l generalizing t with
  | nil => exact h
  | cons v rest ih => exact ih (insertT t v) (wf_insertT v t h)

theorem wf_buildTrie (vocab : List Word) : TrieWF (buildTrie vocab) :=
  wf_foldIns (dedupFirst vocab) (Trie.mk [] false)
    (TrieWF.mk (by simp [keysOf]) (by simp))

theorem mem_collectChildren (cs : List (Char × Trie)) (pre w : Word) :
    w ∈ collectChildren cs pre
      ↔ ∃ c child, (c, child) ∈ cs ∧ w ∈ collectWords child (pre ++ [c]) := by
  induction cs with
  | nil => simp [collectChildren]
  | cons p rest ih =>
    obtain ⟨c, child⟩ := p
    simp only [collectChildren, List.mem_append, List.mem_cons]
    rw [ih]
    constructor
    · rintro (hm | ⟨c2, ch2, hmem, hw⟩)
      · exact ⟨c, child, Or.inl rfl, hm⟩
      · exact ⟨c2, ch2, Or.inr hmem, hw⟩
    · rintro ⟨c2, ch2, (he | hmem), hw⟩
      · rw [Prod.mk.injEq] at he
        obtain ⟨h1, h2⟩ := he
        subst h1
        subst h2
        exact Or.inl hw
      · exact Or.inr ⟨c2, ch2, hmem, hw⟩

theorem mem_collectWords : ∀ (t : Trie), TrieWF t → ∀ (pre w : Word),
    (w ∈ collectWords t pre ↔ ∃ suf, w = pre ++ suf ∧ containsT t suf = true) := by
  refine trieInd _ ?_
  intro cs e hP hwf pre w
  cases hwf with
  | mk hnd hch =>
    simp only [collectWords, List.mem_append]
    rw [mem_collectChildren]
    constructor
    · rintro (hm | ⟨c, child, hmem, hw⟩)
      · by_cases he : e
        · rw [if_pos he] at hm
          simp at hm
          exact ⟨[], by simp [hm], by rw [containsT_nil_eq]; exact he⟩
        · simp [he] at hm
      · obtain ⟨suf, hsuf, hcont⟩ :=
          (hP (c, child) hmem (hch _ hmem) (pre ++ [c]) w).mp hw
        refine ⟨c :: suf, by simp [hsuf], ?_⟩
        rw [containsT_cons_eq, (lookupA_eq_some_iff_of_nodup cs hnd c child).mpr hmem]
        exact hcont
    · rintro ⟨suf, hsuf, hcont⟩
      cases suf with
      | nil =>
        left
        rw [containsT_nil_eq] at hcont
        simp [hcont, hsuf]
      | cons c sr =>
        right
        rw [containsT_cons_eq] at hcont
        cases hl : lookupA cs c with
        | none =>
          rw [hl] at hcont
          simp at hcont
        | some child =>
          simp only [hl] at hcont
          have hmem := lookupA_some_mem cs c child hl
          refine ⟨c, child, hmem, ?_⟩
          exact (hP (c, child) hmem (hch _ hmem) (pre ++ [c]) w).mpr
            ⟨sr, by simp [hsuf], hcont⟩

theorem descendT_some_containsT : ∀ (p : Word) (t node : Trie),
    descendT t p = some node →
    ∀ suf : Word, containsT node suf = containsT t (p ++ suf) := by
  intro p
  induction p with
  | nil =>
    intro t node h suf
    simp only [descendT] at h
    have := Option.some_injective _ h
    subst this
    rfl
  | cons c pr ih =>
    intro t node h suf
    obtain ⟨cs, e⟩ := t
    simp only [descendT] at h
    cases hl : lookupA cs c with
    | none => rw [hl] at h; exact Option.noConfusion h
    | some child =>
      rw [hl] at h
      rw [List.cons_append, containsT_cons_eq, hl]
      exact ih child node h (suf)

theorem descendT_none_containsT : ∀ (p : Word) (t : Trie),
    descendT t p = none →
    ∀ suf : Word, containsT t (p ++ suf) = false := by
  intro p
  induction p with
  | nil =>
    intro t h
    simp [descendT] at h
  | cons c pr ih =>
    intro t h suf
    obtain ⟨cs, e⟩ := t
    simp only [descendT] at h
    rw [List.cons_append, containsT_cons_eq]
    cases hl : lookupA cs c with
    | none => rfl
    | some child =>
      rw [hl] at h
      exact ih child h suf

theorem descendT_wf : ∀ (p : Word) (t node : Trie),
    TrieWF t → descendT t p = some node → TrieWF node := by
  intro p
  induction p with
  | nil =>
    intro t node hwf h
    simp only [descendT] at h
    have := Option.some_injective _ h
    subst this
    exact hwf
  | cons c pr ih =>
    intro t node hwf h
    obtain ⟨cs, e⟩ := t
    simp only [descendT] at h
    cases hl : lookupA cs c with
    | none => rw [hl] at h; exact Option.noConfusion h
    | some child =>
      rw [hl] at h
      cases hwf with
      | mk hnd hch =>
        exact ih child node (hch _ (lookupA_some_mem cs c child hl)) h

theorem mem_searchPrefix (t : Trie) (hwf : TrieWF t) (p w : Word) :
    w ∈ searchPrefix t p ↔ p <+: w ∧ containsT t w = true := by
  unfold searchPrefix
  cases hd : descendT t p with
  | none =>
    simp only [List.not_mem_nil, false_iff]
    rintro ⟨⟨suf, hsuf⟩, hcont⟩
    rw [← hsuf] at hcont
    rw [descendT_none_containsT p t hd suf] at hcont
    exact Bool.false_ne_true hcont
  | some node =>
    rw [mem_collectWords node (descendT_wf p t node hwf hd) p w]
    constructor
    · rintro ⟨suf, hsuf, hcont⟩
      rw [descendT_some_containsT p t node hd suf] at hcont
      exact ⟨⟨suf, hsuf.symm⟩, hsuf ▸ hcont⟩
    · rintro ⟨⟨suf, hsuf⟩, hcont⟩
      refine ⟨suf, hsuf.symm, ?_⟩
      rw [descendT_some_containsT p t node hd suf, hsuf]
      exact hcont

theorem nodup_collectChildren (cs : List (Char × Trie)) (pre : Word)
    (hnd : (keysOf cs).Nodup) (hch : ∀ p ∈ cs, TrieWF p.2)
    (hP : ∀ p ∈ cs, ∀ pre2 : Word, (collectWords p.2 pre2).Nodup) :
    (collectChildren cs pre).Nodup := by
  induction cs with
  | nil => simp [collectChildren]
  | cons q rest ih =>
    obtain ⟨c, child⟩ := q
    simp only [collectChildren]
    have hndr : (keysOf rest).Nodup := by
      simp only [keysOf, List.map_cons, List.nodup_cons] at hnd
      exact hnd.2
    have hcnotin : c ∉ keysOf rest := by
      simp only [keysOf, List.map_cons, List.nodup_cons] at hnd
      exact hnd.1
    refine List.Nodup.append ?_ ?_ ?_
    · exact hP (c, child) (List.mem_cons_self _ _) (pre ++ [c])
    · exact ih hndr (fun p hp => hch p (List.mem_cons_of_mem _ hp))
        (fun p hp => hP p (List.mem_cons_of_mem _ hp))
    · intro w hw hw2
      obtain ⟨s1, hs1, -⟩ :=
        (mem_collectWords child (hch (c, child) (List.mem_cons_self _ _)) (pre ++ [c]) w).mp hw
      obtain ⟨c2, ch2, hmem2, hw2c⟩ := (mem_collectChildren rest pre w).mp hw2
      obtain ⟨s2, hs2, -⟩ :=
        (mem_collectWords ch2 (hch (c2, ch2) (List.mem_cons_of_mem _ hmem2)) (pre ++ [c2]) w).mp hw2c
      have hc2k : c2 ∈ keysOf rest := by
        simp only [keysOf, List.mem_map]
        exact ⟨(c2, ch2), hmem2, rfl⟩
      have hcc : ¬ c = c2 := fun he => hcnotin (he ▸ hc2k)
      have e1 : w[pre.length]? = some c := by
        rw [hs1, List.append_assoc, List.getElem?_append_right (le_refl pre.length)]
        simp
      have e2 : w[pre.length]? = some c2 := by
        rw [hs2, List.append_assoc, List.getElem?_append_right (le_refl pre.length)]
        simp
      rw [e1] at e2
      exact hcc (Option.some_injective _ e2)

theorem nodup_collectWords : ∀ (t : Trie), TrieWF t → ∀ pre : Word,
    (collectWords t pre).Nodup := by
  refine trieInd _ ?_
  intro cs e hP hwf pre
  cases hwf with
  | mk hnd hch =>
    simp only [collectWords]
    refine List.Nodup.append ?_ ?_ ?_
    · by_cases he : e <;> simp [he]
    · exact nodup_collectChildren cs pre hnd hch (fun p hp pre2 => hP p hp (hch p hp) pre2)
    · intro w hw hw2
      by_cases he : e
      · rw [if_pos he] at hw
        simp at hw
        obtain ⟨c, child, hmem, hwc⟩ := (mem_collectChildren cs pre w).mp hw2
        obtain ⟨suf, hsuf, -⟩ :=
          (mem_collectWords child (hch (c, child) hmem) (pre ++ [c]) w).mp hwc
        rw [hw] at hsuf
        have : pre.length = pre.length + 1 + suf.length := by
          calc pre.length = ((pre ++ [c]) ++ suf).length := by rw [← hsuf]
          _ = pre.length + 1 + suf.length := by
            simp
            omega
        omega
      · simp [he] at hw

theorem nodup_searchPrefix (t : Trie) (hwf : TrieWF t) (p : Word) :
    (searchPrefix t p).Nodup := by
  unfold searchPrefix
  cases hd : descendT t p with
  | none => simp
  | some node => exact nodup_collectWords node (descendT_wf p t node hwf hd) p

/-- C3: for every vocabulary and every query, `search_prefix(p)` returns
exactly the stored words that start with `p`, each exactly once
(duplicate-free); `search_prefix("")` returns the whole vocabulary; a
query matching nothing returns the empty list, never an error. -/
theorem c3_search_prefix_exact (vocab : List Word) (p : Word) :
    ((searchPrefix (buildTrie vocab) p).Nodup)
    ∧ (∀ w : Word, w ∈ searchPrefix (buildTrie vocab) p ↔ w ∈ vocab ∧ p <+: w)
    ∧ (∀ w : Word, w ∈ searchPrefix (buildTrie vocab) [] ↔ w ∈ vocab)
    ∧ ((∀ w ∈ vocab, ¬ p <+: w) → searchPrefix (buildTrie vocab) p = []) := by
  have hwf := wf_buildTrie vocab
  have hmem : ∀ w, w ∈ searchPrefix (buildTrie vocab) p ↔ w ∈ vocab ∧ p <+: w := by
    intro w
    rw [mem_searchPrefix _ hwf, containsT_buildTrie]
    tauto
  refine ⟨nodup_searchPrefix _ hwf p, hmem, ?_, ?_⟩
  · intro w
    rw [mem_searchPrefix _ hwf, containsT_buildTrie]
    simp
  · intro hno
    rw [List.eq_nil_iff_forall_not_mem]
    intro w hw
    obtain ⟨hv, hp⟩ := (hmem w).mp hw
    exact hno w hv hp

theorem c3_witness :
    (searchPrefix (buildTrie [['a','b'], ['a','c'], ['a','b']]) ['a']).Nodup
    ∧ (['a','b'] ∈ searchPrefix (buildTrie [['a','b'], ['a','c'], ['a','b']]) ['a']
        ↔ ['a','b'] ∈ ([['a','b'], ['a','c'], ['a','b']] : List Word)
          ∧ ['a'] <+: ['a','b'])
    ∧ (['a','c'] ∈ searchPrefix (buildTrie [['a','b'], ['a','c'], ['a','b']]) []
        ↔ ['a','c'] ∈ ([['a','b'], ['a','c'], ['a','b']] : List Word))
    ∧ (∀ w ∈ ([['a','b'], ['a','c'], ['a','b']] : List Word), ¬ (['z'] : Word) <+: w)
    ∧ searchPrefix (buildTrie [['a','b'], ['a','c'], ['a','b']]) ['z'] = [] := by
  have h1 := c3_search_prefix_exact [['a','b'], ['a','c'], ['a','b']] ['a']
  have h2 := c3_search_prefix_exact [['a','b'], ['a','c'], ['a','b']] ['z']
  exact ⟨h1.1, h1.2.1 ['a','b'], h1.2.2.1 ['a','c'],
    by decide, h2.2.2.2 (by decide)⟩

/- ### Word-completor build invariants and backfill lemmas -/

theorem docFold_counter_inv (doc : List Word) (c0 : List (Word × Nat))
    (h : (keysOf c0).Nodup ∧ ∀ p ∈ c0, 0 < p.2) :
    (keysOf (doc.foldl cincr c0)).Nodup ∧ ∀ p ∈ doc.foldl cincr c0, 0 < p.2 := by
  induction doc generalizing c0 with
  | nil => exact h
  | cons w rest ih =>
    exact ih _ ⟨nodup_keysOf_cincr c0 w h.1, pos_vals_cincr c0 w h.2⟩

theorem corpusFold_counter_inv (corpus : List (List Word)) (c0 : List (Word × Nat))
    (h : (keysOf c0).Nodup ∧ ∀ p ∈ c0, 0 < p.2) :
    (keysOf (corpus.foldl (fun c doc => doc.foldl cincr c) c0)).Nodup
    ∧ ∀ p ∈ corpus.foldl (fun c doc => doc.foldl cincr c) c0, 0 < p.2 := by
  induction corpus generalizing c0 with
  | nil => exact h
  | cons doc rest ih => exact ih _ (docFold_counter_inv doc c0 h)

theorem buildWC_counter_inv (corpus : List (List Word)) (minFreq : Nat) :
    (keysOf (buildWordCompletor corpus minFreq).counter).Nodup
    ∧ ∀ p ∈ (buildWordCompletor corpus minFreq).counter, 0 < p.2 := by
  have h0 := corpusFold_counter_inv corpus [] ⟨by simp [keysOf], by simp⟩
  simp only [buildWordCompletor]
  by_cases hf : 1 < minFreq
  · rw [if_pos hf]
    constructor
    · exact h0.1.sublist (List.Sublist.map Prod.fst (List.filter_sublist _))
    · intro p hp
      exact h0.2 p (List.mem_of_mem_filter hp)
  · rw [if_neg hf]
    exact h0

theorem total_if_eq (l : List (Word × Nat)) :
    (if l.isEmpty then 0 else sumVals l) = sumVals l := by
  cases l with
  | nil => simp [sumVals]
  | cons p t => simp

theorem buildWC_total_eq (corpus : List (List Word)) (minFreq : Nat) :
    (buildWordCompletor corpus minFreq).totalCount
      = sumVals (buildWordCompletor corpus minFreq).counter := by
  simp only [buildWordCompletor]
  exact total_if_eq _

theorem buildWC_total_pos (corpus : List (List Word)) (minFreq : Nat)
    (hne : keysOf (buildWordCompletor corpus minFreq).counter ≠ []) :
    0 < (buildWordCompletor corpus minFreq).totalCount := by
  rw [buildWC_total_eq]
  have hpos := (buildWC_counter_inv corpus minFreq).2
  cases hc : (buildWordCompletor corpus minFreq).counter with
  | nil => rw [hc] at hne; simp [keysOf] at hne
  | cons p t =>
    have hp := hpos p (hc ▸ List.mem_cons_self p t)
    simp only [sumVals, List.map_cons, List.sum_cons]
    omega

theorem buildWC_tree_eq (corpus : List (List Word)) (minFreq : Nat) :
    (buildWordCompletor corpus minFreq).tree
      = buildTrie (keysOf (buildWordCompletor corpus minFreq).counter) := rfl

theorem insDesc_perm (x : Word × ℚ) (l : List (Word × ℚ)) :
    (insDesc x l).Perm (x :: l) := by
  induction l with
  | nil => exact List.Perm.refl _
  | cons y ys ih =>
    simp only [insDesc]
    by_cases h : x.2 < y.2
    · rw [if_pos h]
      exact (ih.cons y).trans (List.Perm.swap x y ys)
    · rw [if_neg h]

theorem sortDesc_perm (l : List (Word × ℚ)) : (sortDesc l).Perm l := by
  induction l with
  | nil => exact List.Perm.refl _
  | cons x xs ih =>
    simp only [sortDesc]
    exact (insDesc_perm x (sortDesc xs)).trans (ih.cons x)

theorem padLoop_isPrefix (ws : List Word) (s : List Word) : s <+: padLoop s ws := by
  induction ws generalizing s with
  | nil => exact List.prefix_refl _
  | cons w rest ih =>
    simp only [padLoop]
    by_cases hw : w ∈ s
    · rw [if_pos hw]
      exact ih s
    · rw [if_neg hw]
      by_cases h3 : (s ++ [w]).length = 3
      · rw [if_pos h3]
        exact List.prefix_append _ _
      · rw [if_neg h3]
        exact (List.prefix_append s [w]).trans (ih (s ++ [w]))

theorem backfillLoop_nodup (ranked : List (Word × ℚ)) (filled : List Word)
    (h : filled.Nodup) : (backfillLoop filled ranked).Nodup := by
  induction ranked generalizing filled with
  | nil => exact h
  | cons p rest ih =>
    obtain ⟨w, q⟩ := p
    simp only [backfillLoop]
    by_cases hw : w ∈ filled
    · rw [if_pos hw]
      exact ih filled h
    · rw [if_neg hw]
      have h2 : (filled ++ [w]).Nodup := by
        refine List.Nodup.append h (List.nodup_singleton w) ?_
        intro a ha hb
        simp at hb
        rw [hb] at ha
        exact hw ha
      by_cases h3 : (filled ++ [w]).length = 3
      · rw [if_pos h3]
        exact h2
      · rw [if_neg h3]
        exact ih _ h2

theorem padLoop_nodup (ws : List Word) (s : List Word)
    (h : s.Nodup) : (padLoop s ws).Nodup := by
  induction ws generalizing s with
  | nil => exact h
  | cons w rest ih =>
    simp only [padLoop]
    by_cases hw : w ∈ s
    · rw [if_pos hw]
      exact ih s h
    · rw [if_neg hw]
      have h2 : (s ++ [w]).Nodup := by
        refine List.Nodup.append h (List.nodup_singleton w) ?_
        intro a ha hb
        simp at hb
        rw [hb] at ha
        exact hw ha
      by_cases h3 : (s ++ [w]).length = 3
      · rw [if_pos h3]
        exact h2
      · rw [if_neg h3]
        exact ih _ h2

theorem backfillLoop_length_le (ranked : List (Word × ℚ)) (filled : List Word)
    (h : filled.length < 3) : (backfillLoop filled ranked).length ≤ 3 := by
  induction ranked generalizing filled with
  | nil =>
    simp only [backfillLoop]
    omega
  | cons p rest ih =>
    obtain ⟨w, q⟩ := p
    simp only [backfillLoop]
    by_cases hw : w ∈ filled
    · rw [if_pos hw]
      exact ih filled h
    · rw [if_neg hw]
      by_cases h3 : (filled ++ [w]).length = 3
      · rw [if_pos h3]
        omega
      · rw [if_neg h3]
        refine ih _ ?_
        simp only [List.length_append, List.length_singleton] at h3 ⊢
        omega

theorem padLoop_length_le (ws : List Word) (s : List Word)
    (h : s.length < 3) : (padLoop s ws).length ≤ 3 := by
  induction ws generalizing s with
  | nil =>
    simp only [padLoop]
    omega
  | cons w rest ih =>
    simp only [padLoop]
    by_cases hw : w ∈ s
    · rw [if_pos hw]
      exact ih s h
    · rw [if_neg hw]
      by_cases h3 : (s ++ [w]).length = 3
      · rw [if_pos h3]
        omega
      · rw [if_neg h3]
        refine ih _ ?_
        simp only [List.length_append, List.length_singleton] at h3 ⊢
        omega

theorem backfillLoop_covers (ranked : List (Word × ℚ)) (filled : List Word)
    (h : (backfillLoop filled ranked).length < 3) :
    ∀ pr ∈ ranked, pr.1 ∈ backfillLoop filled ranked := by
  induction ranked generalizing filled with
  | nil => simp
  | cons p rest ih =>
    obtain ⟨w, q⟩ := p
    intro pr hpr
    simp only [backfillLoop] at h ⊢
    by_cases hw : w ∈ filled
    · rw [if_pos hw] at h ⊢
      rcases List.mem_cons.mp hpr with he | ht
      · rw [he]
        exact (backfillLoop_isPrefix rest filled).subset hw
      · exact ih filled h pr ht
    · rw [if_neg hw] at h ⊢
      by_cases h3 : (filled ++ [w]).length = 3
      · rw [if_pos h3] at h
        omega
      · rw [if_neg h3] at h ⊢
        rcases List.mem_cons.mp hpr with he | ht
        · rw [he]
          exact (backfillLoop_isPrefix rest (filled ++ [w])).subset
            (List.mem_append.mpr (Or.inr (List.mem_singleton_self w)))
        · exact ih _ h pr ht

theorem getNextWordsAndProbs_ok_ws (m : NGramModel) (tokens ws : List Word)
    (ps : List ℚ) (m2 : NGramModel)
    (h : getNextWordsAndProbs m tokens = Except.ok ((ws, ps), m2)) :
    ws = [] ∨ ∃ c, lookupA m.nextCounts (tokens.drop (tokens.length - m.n)) = some c
      ∧ ws = keysOf c := by
  by_cases h1 : tokens.length < m.n
  · simp only [getNextWordsAndProbs, if_pos h1] at h
    exact Except.noConfusion h
  · simp only [getNextWordsAndProbs, if_neg h1] at h
    cases hl : lookupA m.nextCounts (tokens.drop (tokens.length - m.n)) with
    | none =>
      simp only [hl, Option.isNone_none, if_true] at h
      have h2 := Except.ok.inj h
      left
      have := congrArg Prod.fst (congrArg Prod.fst h2)
      exact this.symm
    | some c =>
      simp only [hl, Option.isNone_some, Option.isSome_some, Option.getD_some,
        Bool.false_eq_true, if_false, if_true] at h
      have h2 := Except.ok.inj h
      right
      refine ⟨c, rfl, ?_⟩
      have := congrArg Prod.fst (congrArg Prod.fst h2)
      exact this.symm

theorem nextWordsOr_nodup (corpusN : List (List Word)) (n : Nat) (ng : NGramModel)
    (hb : buildNGram corpusN n = some ng) (tokens : List Word) :
    (nextWordsOr ng tokens).Nodup := by
  unfold nextWordsOr
  cases hq : getNextWordsAndProbs ng tokens with
  | error e => simp
  | ok pr =>
    obtain ⟨⟨ws, ps⟩, m2⟩ := pr
    rcases getNextWordsAndProbs_ok_ws ng tokens ws ps m2 hq with he | ⟨c, hl, hws⟩
    · simp [he]
    · rw [hws]
      exact ((ngInv_build corpusN n ng hb).2.1 _ c hl).2.2

theorem getWordsAndProbs_fst_nodup (wc : WordCompletor)
    (hnd : (keysOf wc.counter).Nodup) (hwt : TrieWF wc.tree) (pre : Word) :
    (getWordsAndProbs wc pre).1.Nodup := by
  simp only [getWordsAndProbs]
  by_cases hz : ((if pre.isEmpty then keysOf wc.counter else searchPrefix wc.tree pre).isEmpty
      || decide (wc.totalCount = 0)) = true
  · rw [if_pos hz]
    simp
  · rw [if_neg hz]
    by_cases hp : pre.isEmpty
    · simp only [if_pos hp]
      exact hnd
    · simp only [if_neg hp]
      exact nodup_searchPrefix wc.tree hwt pre

theorem map_fst_zip_sublist {α β : Type} : ∀ (l1 : List α) (l2 : List β),
    List.Sublist ((l1.zip l2).map Prod.fst) l1
  | [], _ => by simp
  | a :: t1, [] => by simp
  | a :: t1, b :: t2 => by
    simp only [List.zip_cons_cons, List.map_cons]
    exact (map_fst_zip_sublist t1 t2).cons₂ a

theorem completions_nodup (words : List Word) (probs : List ℚ) (hnd : words.Nodup) :
    (((sortDesc (words.zip probs)).take 3).map Prod.fst).Nodup := by
  have hperm : ((sortDesc (words.zip probs)).map Prod.fst).Perm
      ((words.zip probs).map Prod.fst) := (sortDesc_perm _).map Prod.fst
  have hzf : ((words.zip probs).map Prod.fst).Nodup :=
    (map_fst_zip_sublist words probs).nodup hnd
  have h1 : ((sortDesc (words.zip probs)).map Prod.fst).Nodup :=
    hperm.nodup_iff.mpr hzf
  rw [List.map_take]
  exact (List.take_sublist 3 _).nodup h1

theorem backfillSuggestions_spec (wc : WordCompletor) (existing : List Word)
    (hnd : (keysOf wc.counter).Nodup) (hpos : ∀ p ∈ wc.counter, 0 < p.2)
    (htot : wc.totalCount = sumVals wc.counter)
    (hvocab : 3 ≤ (keysOf wc.counter).length)
    (hend : existing.Nodup) (hlt : existing.length < 3) :
    (backfillSuggestions wc existing).length = 3
    ∧ (backfillSuggestions wc existing).Nodup := by
  have hne : keysOf wc.counter ≠ [] := by
    intro h
    rw [h] at hvocab
    simp at hvocab
  have htpos : 0 < wc.totalCount := by
    rw [htot]
    cases hc : wc.counter with
    | nil =>
      exfalso
      apply hne
      rw [hc]
      rfl
    | cons p t =>
      have hp := hpos p (hc ▸ List.mem_cons_self p t)
      simp only [sumVals, List.map_cons, List.sum_cons]
      omega
  have hq : getWordsAndProbs wc [] = (keysOf wc.counter,
      (keysOf wc.counter).map
        (fun w => ((lookupD wc.counter w 0 : Nat) : ℚ) / ((wc.totalCount : Nat) : ℚ))) := by
    simp only [getWordsAndProbs, List.isEmpty_nil, if_true]
    rw [if_neg (by
      simp only [Bool.or_eq_true, List.isEmpty_iff, decide_eq_true_eq]
      push_neg
      exact ⟨hne, by omega⟩)]
  simp only [backfillSuggestions, if_neg (by omega : ¬ 3 ≤ existing.length), hq]
  set probs := (keysOf wc.counter).map
    (fun w => ((lookupD wc.counter w 0 : Nat) : ℚ) / ((wc.totalCount : Nat) : ℚ)) with hprobs
  set ranked := sortDesc ((keysOf wc.counter).zip probs) with hranked
  refine ⟨?_, backfillLoop_nodup ranked existing hend⟩
  have hle := backfillLoop_length_le ranked existing hlt
  by_contra hne3
  have hlt3 : (backfillLoop existing ranked).length < 3 := by omega
  have hcov := backfillLoop_covers ranked existing hlt3
  have hsub : keysOf wc.counter ⊆ backfillLoop existing ranked := by
    intro v hv
    have hlen : (keysOf wc.counter).length ≤ probs.length := by
      rw [hprobs, List.length_map]
    rw [← List.map_fst_zip (keysOf wc.counter) probs hlen] at hv
    obtain ⟨pr, hpr, hfst⟩ := List.mem_map.mp hv
    have hprr : pr ∈ ranked := by
      rw [hranked]
      exact ((sortDesc_perm _).mem_iff).mpr hpr
    rw [← hfst]
    exact hcov pr hprr
  have hsp := List.subperm_of_subset hnd hsub
  have := hsp.length_le
  omega

theorem updateText_suggestions_eq (wc : WordCompletor) (ng : NGramModel)
    (value : List Char)
    (hstrip : value.dropWhile (fun c => pySpace c) ≠ []) :
    (updateText wc ng value).1 = backfillSuggestions wc (preSuggestions wc ng value) := by
  have hie : (value.dropWhile (fun c => pySpace c)).isEmpty = false := by
    simp [List.isEmpty_iff, hstrip]
  simp only [updateText, preSuggestions, hie, Bool.false_eq_true, if_false]
  cases hgl : value.getLast? with
  | none =>
    by_cases hc3 : (((sortDesc ((getWordsAndProbs wc
        ((splitWs (value.dropWhile (fun c => pySpace c))).getLastD [])).1.zip
        (getWordsAndProbs wc
        ((splitWs (value.dropWhile (fun c => pySpace c))).getLastD [])).2)).take 3).map
        Prod.fst).length < 3
    · simp [hc3]
    · simp [hc3]
  | some c =>
    by_cases hcs : pySpace c
    · simp [hcs]
    · by_cases hc3 : (((sortDesc ((getWordsAndProbs wc
          ((splitWs (value.dropWhile (fun c => pySpace c))).getLastD [])).1.zip
          (getWordsAndProbs wc
          ((splitWs (value.dropWhile (fun c => pySpace c))).getLastD [])).2)).take 3).map
          Prod.fst).length < 3
      · simp [hcs, hc3]
      · simp [hcs, hc3]

theorem buildWC_tree_wf (corpus : List (List Word)) (minFreq : Nat) :
    TrieWF (buildWordCompletor corpus minFreq).tree := by
  rw [buildWC_tree_eq]
  exact wf_buildTrie _

theorem preSuggestions_nodup (corpusN : List (List Word)) (n : Nat) (ng : NGramModel)
    (hb : buildNGram corpusN n = some ng) (wc : WordCompletor)
    (hnd : (keysOf wc.counter).Nodup) (hwt : TrieWF wc.tree) (value : List Char) :
    (preSuggestions wc ng value).Nodup := by
  have hmid : ∀ tokens : List Word,
      (if (((sortDesc ((getWordsAndProbs wc (tokens.getLastD [])).1.zip
            (getWordsAndProbs wc (tokens.getLastD [])).2)).take 3).map Prod.fst).length < 3
        then padLoop (((sortDesc ((getWordsAndProbs wc (tokens.getLastD [])).1.zip
            (getWordsAndProbs wc (tokens.getLastD [])).2)).take 3).map Prod.fst)
            (nextWordsOr ng tokens)
        else ((sortDesc ((getWordsAndProbs wc (tokens.getLastD [])).1.zip
            (getWordsAndProbs wc (tokens.getLastD [])).2)).take 3).map Prod.fst).Nodup := by
    intro tokens
    have hcn := completions_nodup (getWordsAndProbs wc (tokens.getLastD [])).1
      (getWordsAndProbs wc (tokens.getLastD [])).2
      (getWordsAndProbs_fst_nodup wc hnd hwt _)
    by_cases h3 : (((sortDesc ((getWordsAndProbs wc (tokens.getLastD [])).1.zip
        (getWordsAndProbs wc (tokens.getLastD [])).2)).take 3).map Prod.fst).length < 3
    · simp only [if_pos h3]
      exact padLoop_nodup _ _ hcn
    · simp only [if_neg h3]
      exact hcn
  simp only [preSuggestions]
  cases hgl : value.getLast? with
  | none =>
    simp only []
    exact hmid _
  | some c =>
    by_cases hcs : pySpace c
    · simp only [hcs, if_true]
      exact (List.take_sublist 3 _).nodup (nextWordsOr_nodup corpusN n ng hb _)
    · simp only [hcs, Bool.false_eq_true, if_false]
      exact hmid _

/-- C9: whenever the primary sources (context-model next-words and/or
completor prefix completions) yield fewer than three candidates and the
retained vocabulary holds at least three words, the suggestion list the
policy produces for a non-blank buffer has exactly three entries, with no
duplicates. -/
theorem c9_backfill_exactly_three (corpusW corpusN : List (List Word))
    (minFreq n : Nat) (ng : NGramModel) (value : List Char)
    (hng : buildNGram corpusN n = some ng)
    (hvocab : 3 ≤ (keysOf (buildWordCompletor corpusW minFreq).counter).length)
    (hstrip : value.dropWhile (fun c => pySpace c) ≠ [])
    (hshort : (preSuggestions (buildWordCompletor corpusW minFreq) ng value).length < 3) :
    (updateText (buildWordCompletor corpusW minFreq) ng value).1.length = 3
    ∧ (updateText (buildWordCompletor corpusW minFreq) ng value).1.Nodup := by
  rw [updateText_suggestions_eq (buildWordCompletor corpusW minFreq) ng value hstrip]
  have hinv := buildWC_counter_inv corpusW minFreq
  have hpre : (preSuggestions (buildWordCompletor corpusW minFreq) ng value).Nodup :=
    preSuggestions_nodup corpusN n ng hng (buildWordCompletor corpusW minFreq)
      hinv.1 (buildWC_tree_wf corpusW minFreq) value
  exact backfillSuggestions_spec (buildWordCompletor corpusW minFreq) _
    hinv.1 hinv.2 (buildWC_total_eq corpusW minFreq) hvocab hpre hshort

theorem c9_witness :
    buildNGram corpusEx 1 = some ngEx
    ∧ 3 ≤ (keysOf (buildWordCompletor corpusEx 1).counter).length
    ∧ (['h','e','l'] : List Char).dropWhile (fun c => pySpace c) ≠ []
    ∧ (preSuggestions (buildWordCompletor corpusEx 1) ngEx ['h','e','l']).length < 3
    ∧ (updateText (buildWordCompletor corpusEx 1) ngEx ['h','e','l']).1.length = 3
    ∧ (updateText (buildWordCompletor corpusEx 1) ngEx ['h','e','l']).1.Nodup := by
  have h := c9_backfill_exactly_three corpusEx corpusEx 1 1 ngEx ['h','e','l']
    (by with_unfolding_all decide) (by with_unfolding_all decide) (by decide)
    (by with_unfolding_all decide)
  exact ⟨by with_unfolding_all decide, by with_unfolding_all decide, by decide,
    by with_unfolding_all decide, h.1, h.2⟩
